import Mathlib

/-!
Verification development for `src/jobs/md_recorder.py` (betfair_profitbox).

The file shallowly embeds the `PerMarketRecorder` stream listener: the
per-market in-play gate, the lazy `.part` writer, the stats tracker and the
crash-safe finalize protocol.  Python dictionaries become total functions with
the dictionary's read-default; the filesystem becomes a map from structured
paths to optional file contents; a gzip file's content is modelled at the
payload level (the list of lines whose compressed members the file holds),
which is exact for the claims considered because concatenated gzip members
decompress to the concatenation of their payloads.  Exceptions raised by
`open`/`write`/`os.rename`/`shutil.copyfileobj`/`os.remove` are driven by an
explicit fault model; an uncaught exception is an `Except.error` carrying the
mutated-so-far state, mirroring Python's in-place dictionary mutation.
-/

namespace MdRecorder

/-- A JSON scalar as Python sees it after `json.loads`; `vnull` doubles for an
absent key under `dict.get`, which returns `None` in both cases. -/
inductive PyVal where
  | vnull : PyVal
  | vbool : Bool → PyVal
  | vint  : Int → PyVal
  | vstr  : String → PyVal
deriving DecidableEq

/-- Python truthiness `bool(v)` for the values of `PyVal`. -/
def PyVal.toBool : PyVal → Bool
  | .vnull => false
  | .vbool b => b
  | .vint n => decide (n ≠ 0)
  | .vstr s => decide (s ≠ "")

/-- Python `str(v)` for the values of `PyVal`. -/
def PyVal.pyStr : PyVal → String
  | .vnull => "None"
  | .vbool true => "True"
  | .vbool false => "False"
  | .vint n => toString n
  | .vstr s => s

/-- Models `d.get(key)`: an absent key and a JSON `null` both read as `None`. -/
def pyGet (o : Option PyVal) : PyVal := o.getD .vnull

/-- The `marketDefinition` fragment of one `mc` entry, field values as
`json.loads` delivers them (`none` = key absent from the dict; `some .vnull` =
key present with JSON null — the two are distinguishable via `"inPlay" in md`,
which is why the field type keeps the wrapper).  `inplayLC` is the lowercase
`"inplay"` spelling probed by the `elif` branch. -/
structure MarketDef where
  eventTypeId : Option PyVal := none
  marketTime  : Option PyVal := none
  name        : Option PyVal := none
  inPlay      : Option PyVal := none
  inplayLC    : Option PyVal := none
  status      : Option PyVal := none
deriving DecidableEq

/-- One entry of the message's `mc` list.  Ids are strings in the stream;
`none` models an absent (or null) `"id"` key.  A present-but-falsy dict for
`marketDefinition` behaves identically to an all-absent `MarketDef`, so the
`Option` only distinguishes "no definition at all". -/
structure MC where
  id : Option String := none
  marketDefinition : Option MarketDef := none
deriving DecidableEq

/-- The decoded JSON object of one feed line (the result of `json.loads`),
restricted to the fields `on_data` reads: `pt` and the `mc` list. -/
structure Msg where
  pt : Option PyVal := none
  mc : List MC := []
deriving DecidableEq

/-- One raw feed line as `on_data` receives it: the two substring probes
(`'"ct":"HEARTBEAT"' in raw`, `'"op":"mcm"' in raw`), the decode result
(`none` = `json.loads` raised), and the length of
`(raw.rstrip("\n") + "\n").encode("utf-8")`.  The `RawLine` value itself
stands for those encoded bytes when it is written to a file. -/
structure RawLine where
  hb : Bool := false
  mcm : Bool := true
  parsed : Option Msg := none
  bytes : Nat := 0
deriving DecidableEq

/-- A filesystem path of the recorder: `BASE/<day>/<evt>/<mid>.jsonl.gz`,
with `isPart` marking the `.part` companion.  `os.path.join` makes the four
components injective into path strings, so the structured form is exact. -/
structure FPath where
  day : String
  evt : String
  mid : String
  isPart : Bool
deriving DecidableEq

/-- Validates the `YYYY-MM-DD` prefix of an ISO-8601 string: four digits,
dash, two-digit month in 1..12, dash, two-digit day in 1..31. -/
def dateOk : List Char → Bool
  | [y1, y2, y3, y4, h1, m1, m2, h2, d1, d2] =>
      y1.isDigit && y2.isDigit && y3.isDigit && y4.isDigit &&
      (h1 == '-') && m1.isDigit && m2.isDigit && (h2 == '-') &&
      d1.isDigit && d2.isDigit &&
      (let mo := (m1.toNat - 48) * 10 + (m2.toNat - 48)
       decide (1 ≤ mo) && decide (mo ≤ 12)) &&
      (let da := (d1.toNat - 48) * 10 + (d2.toNat - 48)
       decide (1 ≤ da) && decide (da ≤ 31))
  | _ => false

/-- Approximates the time-of-day tail accepted by `datetime.fromisoformat`
after the date: empty, or a `T`/space separator followed by digits, colons,
dots and offset signs.  The date extraction below is exact whenever the parse
succeeds, which is all the theorems rely on. -/
def timeOk : List Char → Bool
  | [] => true
  | c :: rest =>
      (c == 'T' || c == ' ') &&
      rest.all fun ch => ch.isDigit || ch == ':' || ch == '.' || ch == '+' || ch == '-'

/-- Models `s.replace("Z", "+00:00")`: because the pattern is a single
character, the characterwise expansion is exact. -/
def replaceZ : List Char → List Char
  | [] => []
  | c :: rest =>
      (if c = 'Z' then ['+', '0', '0', ':', '0', '0'] else [c]) ++ replaceZ rest

/-- Models `iso_to_dt(s)` followed by `strftime("%Y-%m-%d")`: replace `Z` by
`+00:00`, parse, and on success keep the date part (the first ten
characters). -/
def isoDay (s : String) : Option String :=
  let cs := replaceZ s.toList
  if dateOk (cs.take 10) && timeOk (cs.drop 10) then some (String.mk (cs.take 10)) else none

/-- Models `iso_to_dt` applied to `info.get("marketTime")`: a missing value or
a non-string raises inside `iso_to_dt` and yields `None`; a string is parsed
by `isoDay`. -/
def iso_to_day : Option PyVal → Option String
  | some (.vstr s) => isoDay s
  | _ => none

/-- Models `market_base_dir`'s day component: the parsed start date, else the
current UTC day (`utcnow().strftime("%Y-%m-%d")`), threaded in as `today`. -/
def market_base_day (startV : Option PyVal) (today : String) : String :=
  (iso_to_day startV).getD today

/-- Models `market_paths(market_id, evt, start_iso)`: the `(final, part)`
pair under `BASE/<day>/<evt>/`. -/
def market_paths (mid evt : String) (startV : Option PyVal) (today : String) :
    FPath × FPath :=
  let day := market_base_day startV today
  (⟨day, evt, mid, false⟩, ⟨day, evt, mid, true⟩)

/-- The `self.meta[mid]` record: `eventTypeId` is stored already `str()`-ed,
the other two keep the raw JSON value that was assigned. -/
structure Meta where
  eventTypeId : Option String := none
  marketTime  : Option PyVal := none
  marketName  : Option PyVal := none
deriving DecidableEq

/-- The empty meta dict `{}`, the `setdefault`/`get` default. -/
def Meta.empty : Meta := {}

/-- The `self.stats[mid]` record. -/
structure Stats where
  lines : Nat := 0
  bytes : Nat := 0
  first_pt : Option PyVal := none
  last_pt : Option PyVal := none
deriving DecidableEq

/-- The value `_open_if_needed` installs. -/
def Stats.fresh : Stats := {}

/-- Fault model for the fallible primitives: `openFails` covers
`os.makedirs`/`open` in `_open_if_needed`, `writeFails` the gzip
`fh.write`, and the last three the `os.rename` / `shutil.copyfileobj` /
`os.remove` calls of `_finalize_file` (`copyFailAfter m = some n` means the
chunked copy raises after `n` lines have been transferred).  `flush`,
`fsync` and `close` failures are swallowed by their callers without any
state effect visible at this abstraction, so they carry no fault knob. -/
structure Faults where
  openFails : String → Bool
  writeFails : String → Bool
  renameFails : String → Bool
  removeFails : String → Bool
  copyFailAfter : String → Option Nat

/-- The fault-free environment. -/
def noFaults : Faults :=
  ⟨fun _ => false, fun _ => false, fun _ => false, fun _ => false, fun _ => none⟩

/-- Pointwise update of a string-keyed map. -/
def upd {α : Type} (f : String → α) (k : String) (v : α) : String → α :=
  fun x => if x = k then v else f x

/-- Pointwise update of the filesystem map. -/
def fsUpd (f : FPath → Option (List RawLine)) (p : FPath) (v : Option (List RawLine)) :
    FPath → Option (List RawLine) :=
  fun q => if q = p then v else f q

/-- The whole `PerMarketRecorder` state: `files` stands for membership in both
`self.files` and `self.raw_files` (the code always inserts and pops the two
together), the other maps mirror their dictionaries with the read-default the
code uses, and `fs` is the filesystem (`none` = no file at that path). -/
structure RecState where
  files  : String → Bool
  paths  : String → Option (FPath × FPath)
  meta   : String → Meta
  stats  : String → Stats
  inplay : String → Bool
  fs     : FPath → Option (List RawLine)

/-- The freshly constructed recorder over an empty filesystem. -/
def initState : RecState :=
  ⟨fun _ => false, fun _ => none, fun _ => Meta.empty, fun _ => Stats.fresh,
   fun _ => false, fun _ => none⟩

/-- The definition-merge of `on_data`: `eventTypeId` is copied (stringified)
when `md.get` is non-None, `marketTime`/`name` when the value is truthy. -/
def applyDef (md : MarketDef) (m : Meta) : Meta :=
  let m1 := match pyGet md.eventTypeId with
            | .vnull => m
            | v => { m with eventTypeId := some v.pyStr }
  let m2 := if (pyGet md.marketTime).toBool then { m1 with marketTime := md.marketTime }
            else m1
  if (pyGet md.name).toBool then { m2 with marketName := md.name } else m2

/-- The in-play update of `on_data`: a present `"inPlay"` key wins, else a
present `"inplay"` key, in both cases via Python `bool(...)`; with neither key
the stored flag is kept. -/
def applyInplay (md : MarketDef) (ip : Bool) : Bool :=
  match md.inPlay with
  | some v => v.toBool
  | none =>
    match md.inplayLC with
    | some v => v.toBool
    | none => ip

/-- Models `md.get("status") == "CLOSED"`. -/
def statusClosed (md : MarketDef) : Bool :=
  decide (pyGet md.status = PyVal.vstr "CLOSED")

/-- Models `_ensure_paths`: recompute the pair from the current meta entry and
store it in `self.paths` (`os.makedirs` has no footprint in the payload-level
filesystem; its failure is folded into `openFails`). -/
def ensurePaths (today : String) (st : RecState) (mid : String) :
    (FPath × FPath) × RecState :=
  let info := st.meta mid
  let p := market_paths mid (info.eventTypeId.getD "Unknown") info.marketTime today
  (p, { st with paths := upd st.paths mid (some p) })

/-- The state `_open_if_needed` produces on a successful fresh open: paths
resolved and stored, the writer pair registered, a fresh stats record, and the
`.part` file created by `open(part_path, "ab")` (its prior content, if any,
kept). -/
def openedState (today : String) (st : RecState) (mid : String) : RecState :=
  let pr := ensurePaths today st mid
  { pr.2 with files := upd pr.2.files mid true,
              stats := upd pr.2.stats mid Stats.fresh,
              fs := fsUpd pr.2.fs pr.1.2 (some ((pr.2.fs pr.1.2).getD [])) }

/-- Models `_open_if_needed`.  An already-open market returns unchanged.
Otherwise the paths are resolved and stored first (so an open failure leaves
them behind, as in the source), then the open either raises (the `error`
case) or produces `openedState`. -/
def openIfNeeded (f : Faults) (today : String) (st : RecState) (mid : String) :
    Except RecState RecState :=
  if st.files mid then .ok st
  else if f.openFails mid then .error (ensurePaths today st mid).2
  else .ok (openedState today st mid)

/-- Models `_flush_fsync`: flushing moves no payload at this abstraction and
every exception inside it is swallowed, so it is the identity. -/
def flushFsync (st : RecState) (_mid : String) : RecState := st

/-- Models `_close_writer`: pop the writer pair, keep paths and stats; close
exceptions are swallowed. -/
def closeWriter (st : RecState) (mid : String) : RecState :=
  { st with files := upd st.files mid false }

/-- Models `_finalize_file`.  Missing paths or a missing `.part` return
unchanged.  With an existing final artifact the `.part` payload is appended to
it and the `.part` removed (a copy fault stops after `n` lines and skips the
removal; a remove fault keeps the `.part`); otherwise the `.part` is renamed
onto the final path (a rename fault changes nothing).  Every exception is
caught and only logged, as in the source. -/
def finalizeFile (f : Faults) (st : RecState) (mid : String) : RecState :=
  match st.paths mid with
  | none => st
  | some (finalP, partP) =>
    match st.fs partP with
    | none => st
    | some pc =>
      match st.fs finalP with
      | some fc =>
        match f.copyFailAfter mid with
        | some n => { st with fs := fsUpd st.fs finalP (some (fc ++ pc.take n)) }
        | none =>
          if f.removeFails mid then
            { st with fs := fsUpd st.fs finalP (some (fc ++ pc)) }
          else
            { st with fs := fsUpd (fsUpd st.fs finalP (some (fc ++ pc))) partP none }
      | none =>
        if f.renameFails mid then st
        else { st with fs := fsUpd (fsUpd st.fs partP none) finalP (some pc) }

/-- Models `_close_and_finalize` (`_summarize` only logs). -/
def closeAndFinalize (f : Faults) (st : RecState) (mid : String) : RecState :=
  finalizeFile f (closeWriter (flushFsync st mid) mid) mid

/-- The write `fh.write(encoded)`: the gzip writer opened for `mid` appends
the line's encoded bytes to the `.part` file it was opened on, which is the
stored part path (paths are only rewritten while the market is closed). -/
def writeLine (st : RecState) (mid : String) (ln : RawLine) : RecState :=
  match st.paths mid with
  | some pr =>
      { st with fs := fsUpd st.fs pr.2 (some ((st.fs pr.2).getD [] ++ [ln])) }
  | none => st

/-- The stats block of `on_data`: bump `lines` and `bytes`, and on a truthy
`pt` set `first_pt` once and refresh `last_pt`. -/
def recordStats (pt : Option PyVal) (ln : RawLine) (st : RecState) (mid : String) :
    RecState :=
  let s0 := st.stats mid
  let s1 : Stats := { s0 with lines := s0.lines + 1, bytes := s0.bytes + ln.bytes }
  let s2 : Stats :=
    if (pyGet pt).toBool then
      { s1 with first_pt := if s1.first_pt = none then pt else s1.first_pt,
                last_pt := pt }
    else s1
  { st with stats := upd st.stats mid s2 }

/-- The tail of the `mc` loop body after a successful (or skipped) write:
stats, then the auto-finalize on a `CLOSED` definition. -/
def afterWrite (f : Faults) (pt : Option PyVal) (ln : RawLine) (mc : MC)
    (st : RecState) (mid : String) : RecState :=
  let st := recordStats pt ln st mid
  match mc.marketDefinition with
  | some md => if statusClosed md then closeAndFinalize f st mid else st
  | none => st

/-- The body of `on_data`'s `for mc in obj.get("mc", [])` loop for one entry:
skip falsy ids, merge the definition fragment, gate on the in-play flag,
lazily open, write (a write fault closes and finalizes the market and moves to
the next entry), then stats and the `CLOSED` check.  `error` is an exception
escaping the loop body. -/
def procMC (f : Faults) (today : String) (pt : Option PyVal) (ln : RawLine)
    (st : RecState) (mc : MC) : Except RecState RecState :=
  let mid := mc.id.getD ""
  if mid = "" then .ok st
  else
    let st1 :=
      match mc.marketDefinition with
      | some md =>
          { st with meta := upd st.meta mid (applyDef md (st.meta mid)),
                    inplay := upd st.inplay mid (applyInplay md (st.inplay mid)) }
      | none => st
    if st1.inplay mid = false then .ok st1
    else
      match openIfNeeded f today st1 mid with
      | .error e => .error e
      | .ok st2 =>
        if st2.files mid then
          if f.writeFails mid then .ok (closeAndFinalize f st2 mid)
          else .ok (afterWrite f pt ln mc (writeLine st2 mid ln) mid)
        else .ok (afterWrite f pt ln mc st2 mid)

/-- Runs the `mc` loop left to right, aborting on an escaped exception. -/
def procList (f : Faults) (today : String) (pt : Option PyVal) (ln : RawLine) :
    RecState → List MC → Except RecState RecState
  | st, [] => .ok st
  | st, mc :: rest =>
      match procMC f today pt ln st mc with
      | .error e => .error e
      | .ok st' => procList f today pt ln st' rest

/-- Models `on_data(raw)`: drop lines containing the heartbeat tag or lacking
the `mcm` tag, drop undecodable lines, then process the `mc` list. -/
def onData (f : Faults) (today : String) (st : RecState) (ln : RawLine) :
    Except RecState RecState :=
  if ln.hb || !ln.mcm then .ok st
  else
    match ln.parsed with
    | none => .ok st
    | some msg => procList f today msg.pt ln st msg.mc

/-- Feeds a list of lines through `on_data`; an escaped exception aborts the
feed loop, as it would abort `stream.start()`. -/
def runFeed (f : Faults) (today : String) : RecState → List RawLine → Except RecState RecState
  | st, [] => .ok st
  | st, ln :: rest =>
      match onData f today st ln with
      | .error e => .error e
      | .ok st' => runFeed f today st' rest

/-- The state a run ends in, whether or not an exception escaped (used by the
concrete counterexample evaluations). -/
def runState (f : Faults) (today : String) (ls : List RawLine) : RecState :=
  match runFeed f today initState ls with
  | .ok s => s
  | .error s => s

/-! ## Specification-side gate fold

A pure fold computing, for one fixed key, the in-play flag, the merged meta
and the occurrence list the code is supposed to persist: one copy of the line
per `mc` entry of that key that passes the gate after its definition fragment
is applied. -/

/-- The per-key gate state: the in-play flag and the merged meta. -/
structure GSt where
  ip : Bool
  m  : Meta
deriving DecidableEq

/-- The gate state before any line: inactive, empty meta. -/
def gInit : GSt := ⟨false, Meta.empty⟩

/-- One `mc` entry's effect on key `k`'s gate state: entries of other keys are
inert, a definition fragment is merged first. -/
def gateStep (k : String) (g : GSt) (mc : MC) : GSt :=
  if mc.id.getD "" ≠ k then g
  else
    match mc.marketDefinition with
    | some md => ⟨applyInplay md g.ip, applyDef md g.m⟩
    | none => g

/-- Whether the line is emitted for key `k` at this `mc` entry: the entry
belongs to `k` and the gate is up after the definition merge. -/
def gateEmit (k : String) (g : GSt) (mc : MC) : Bool :=
  if mc.id.getD "" ≠ k then false else (gateStep k g mc).ip

/-- Folds a whole `mc` list through `gateStep`. -/
def gateSteps (k : String) : GSt → List MC → GSt
  | g, [] => g
  | g, mc :: rest => gateSteps k (gateStep k g mc) rest

/-- The number of copies of the line emitted for `k` over an `mc` list. -/
def gateCount (k : String) : GSt → List MC → Nat
  | _, [] => 0
  | g, mc :: rest =>
      (if gateEmit k g mc then 1 else 0) + gateCount k (gateStep k g mc) rest

/-- One line's effect on key `k`'s gate state. -/
def lineStep (k : String) (g : GSt) (ln : RawLine) : GSt :=
  if ln.hb || !ln.mcm then g
  else
    match ln.parsed with
    | none => g
    | some msg => gateSteps k g msg.mc

/-- The copies of the line emitted for `k`. -/
def lineEmit (k : String) (g : GSt) (ln : RawLine) : List RawLine :=
  if ln.hb || !ln.mcm then []
  else
    match ln.parsed with
    | none => []
    | some msg => List.replicate (gateCount k g msg.mc) ln

/-- Folds a whole feed through `lineStep`. -/
def lineSteps (k : String) : GSt → List RawLine → GSt
  | g, [] => g
  | g, ln :: rest => lineSteps k (lineStep k g ln) rest

/-- The lines emitted for `k` over a feed, from gate state `g`. -/
def occFrom (k : String) : GSt → List RawLine → List RawLine
  | _, [] => []
  | g, ln :: rest => lineEmit k g ln ++ occFrom k (lineStep k g ln) rest

/-- The ordered list of line occurrences key `k` is supposed to persist over a
feed started from scratch. -/
def occList (k : String) (ls : List RawLine) : List RawLine :=
  occFrom k gInit ls

/-- The path pair `_ensure_paths` would resolve from a given meta record. -/
def pathOfMeta (mid today : String) (m : Meta) : FPath × FPath :=
  market_paths mid (m.eventTypeId.getD "Unknown") m.marketTime today

/-- Path stability along an `mc` list: after every entry of key `k`, the path
resolved from the merged meta is still `P`.  These are exactly the points at
which a lazy open can resolve paths for `k`. -/
def stableMCs (k today : String) (P : FPath × FPath) : GSt → List MC → Bool
  | _, [] => true
  | g, mc :: rest =>
      (if mc.id.getD "" = k then decide (pathOfMeta k today (gateStep k g mc).m = P)
       else true) &&
      stableMCs k today P (gateStep k g mc) rest

/-- Path stability along a whole feed. -/
def stableLines (k today : String) (P : FPath × FPath) : GSt → List RawLine → Bool
  | _, [] => true
  | g, ln :: rest =>
      (if ln.hb || !ln.mcm then true
       else match ln.parsed with
            | none => true
            | some msg => stableMCs k today P g msg.mc) &&
      stableLines k today P (lineStep k g ln) rest

/-! ## Structural invariants -/

/-- Every stored path pair is the `(final, part)` pair of its own market:
well-formedness of `self.paths`, which the code establishes at every
assignment (`_ensure_paths` always stores `market_paths(mid, ...)`). -/
def pathsWF (st : RecState) : Prop :=
  ∀ g fp pp, st.paths g = some (fp, pp) →
    fp.mid = g ∧ pp.mid = g ∧ fp.isPart = false ∧ pp.isPart = true

/-- The run invariant for one key `k` with stable path pair `(Pf, Pp)`: the
recorder state agrees with the gate fold state `g`, and the decompressed
final-plus-part content equals the emitted occurrence list `acc`. -/
structure Inv (k today : String) (Pf Pp : FPath) (st : RecState) (g : GSt)
    (acc : List RawLine) : Prop where
  ip : st.inplay k = g.ip
  meta : st.meta k = g.m
  content : (st.fs Pf).getD [] ++ (st.fs Pp).getD [] = acc
  pathsK : st.paths k = none ∨ st.paths k = some (Pf, Pp)
  filesK : st.files k = true → st.paths k = some (Pf, Pp) ∧ (st.fs Pp).isSome
  noOpen : st.paths k = none → st.fs Pf = none ∧ st.fs Pp = none
  wf : pathsWF st

/-! ## Map update lemmas -/

theorem upd_same {α : Type} (f : String → α) (k : String) (v : α) : upd f k v k = v := by
  simp [upd]

theorem upd_other {α : Type} (f : String → α) (k x : String) (v : α) (h : x ≠ k) :
    upd f k v x = f x := by
  simp [upd, h]

theorem fsUpd_same (f : FPath → Option (List RawLine)) (p : FPath)
    (v : Option (List RawLine)) : fsUpd f p v p = v := by
  simp [fsUpd]

theorem fsUpd_other (f : FPath → Option (List RawLine)) (p q : FPath)
    (v : Option (List RawLine)) (h : q ≠ p) : fsUpd f p v q = f q := by
  simp [fsUpd, h]

/-! ## Path helper lemmas -/

theorem pathOfMeta_fst_mid (mid today : String) (m : Meta) :
    (pathOfMeta mid today m).1.mid = mid := rfl

theorem pathOfMeta_snd_mid (mid today : String) (m : Meta) :
    (pathOfMeta mid today m).2.mid = mid := rfl

theorem pathOfMeta_fst_isPart (mid today : String) (m : Meta) :
    (pathOfMeta mid today m).1.isPart = false := rfl

theorem pathOfMeta_snd_isPart (mid today : String) (m : Meta) :
    (pathOfMeta mid today m).2.isPart = true := rfl

theorem fpath_ne_of_isPart {a b : FPath} (ha : a.isPart = false) (hb : b.isPart = true) :
    a ≠ b := by
  intro h
  subst h
  rw [ha] at hb
  exact Bool.false_ne_true hb

/-! ## Frame lemmas for the per-market operations

The operations for one market touch only that market's entries of the
dictionaries and only that market's two files; `pathsWF` ties the stored
paths to their market. -/

theorem finalizeFile_comps (f : Faults) (st : RecState) (g : String) :
    (finalizeFile f st g).files = st.files ∧ (finalizeFile f st g).paths = st.paths ∧
    (finalizeFile f st g).meta = st.meta ∧ (finalizeFile f st g).stats = st.stats ∧
    (finalizeFile f st g).inplay = st.inplay := by
  unfold finalizeFile
  repeat' split
  all_goals exact ⟨rfl, rfl, rfl, rfl, rfl⟩

theorem finalizeFile_fs_frame (f : Faults) (st : RecState) (g : String)
    (hwf : pathsWF st) (q : FPath) (hq : q.mid ≠ g) :
    (finalizeFile f st g).fs q = st.fs q := by
  unfold finalizeFile
  split
  · rfl
  case h_2 fp pp hp =>
    obtain ⟨h1, h2, _, _⟩ := hwf _ _ _ hp
    have hqf : q ≠ fp := fun h => hq (h ▸ h1)
    have hqp : q ≠ pp := fun h => hq (h ▸ h2)
    repeat' split
    all_goals simp [fsUpd, hqf, hqp]

theorem closeAndFinalize_comps (f : Faults) (st : RecState) (g : String) :
    (closeAndFinalize f st g).files = upd st.files g false ∧
    (closeAndFinalize f st g).paths = st.paths ∧
    (closeAndFinalize f st g).meta = st.meta ∧
    (closeAndFinalize f st g).stats = st.stats ∧
    (closeAndFinalize f st g).inplay = st.inplay := by
  unfold closeAndFinalize flushFsync closeWriter
  obtain ⟨h1, h2, h3, h4, h5⟩ := finalizeFile_comps f { st with files := upd st.files g false } g
  exact ⟨h1, h2, h3, h4, h5⟩

theorem closeAndFinalize_fs_frame (f : Faults) (st : RecState) (g : String)
    (hwf : pathsWF st) (q : FPath) (hq : q.mid ≠ g) :
    (closeAndFinalize f st g).fs q = st.fs q := by
  unfold closeAndFinalize flushFsync closeWriter
  have hwf' : pathsWF { st with files := upd st.files g false } := hwf
  exact finalizeFile_fs_frame f _ g hwf' q hq

theorem closeAndFinalize_wf (f : Faults) (st : RecState) (g : String)
    (hwf : pathsWF st) : pathsWF (closeAndFinalize f st g) := by
  intro x fp pp hx
  obtain ⟨_, h2, _, _, _⟩ := closeAndFinalize_comps f st g
  rw [h2] at hx
  exact hwf _ _ _ hx

/-- The key lemma about `closeAndFinalize` for the market being closed, when
no fault is injected for that market: the writer is popped, the `.part` is
gone, its payload is moved onto the final artifact preserving order, and
nothing else moves. -/
theorem closeAndFinalize_k (f : Faults) {st : RecState} {k : String} {Pf Pp : FPath}
    (hrn : f.renameFails k = false) (hrm : f.removeFails k = false)
    (hcp : f.copyFailAfter k = none)
    (hp : st.paths k = some (Pf, Pp)) (hne : Pf ≠ Pp) :
    (closeAndFinalize f st k).files k = false ∧
    (closeAndFinalize f st k).fs Pp = none ∧
    ((closeAndFinalize f st k).fs Pf).getD [] =
      (st.fs Pf).getD [] ++ (st.fs Pp).getD [] ∧
    (closeAndFinalize f st k).paths = st.paths ∧
    (closeAndFinalize f st k).meta = st.meta ∧
    (closeAndFinalize f st k).stats = st.stats ∧
    (closeAndFinalize f st k).inplay = st.inplay ∧
    ∀ q, q ≠ Pf → q ≠ Pp → (closeAndFinalize f st k).fs q = st.fs q := by
  have hne' : Pp ≠ Pf := fun h => hne h.symm
  unfold closeAndFinalize flushFsync closeWriter finalizeFile
  cases hpc : st.fs Pp with
  | none =>
      refine ⟨?_, ?_, ?_, ?_, ?_, ?_, ?_, ?_⟩
      all_goals simp [hp, hpc, hrn, hrm, hcp, upd, fsUpd]
  | some pc =>
      cases hfc : st.fs Pf with
      | none =>
          refine ⟨?_, ?_, ?_, ?_, ?_, ?_, ?_, ?_⟩
          all_goals try simp [hp, hpc, hfc, hrn, hrm, hcp, upd, fsUpd, hne, hne']
          intro q hqf hqp
          simp [hp, hpc, hfc, hrn, hrm, hcp, upd, fsUpd, hqf, hqp]
      | some fc =>
          refine ⟨?_, ?_, ?_, ?_, ?_, ?_, ?_, ?_⟩
          all_goals try simp [hp, hpc, hfc, hrn, hrm, hcp, upd, fsUpd, hne, hne']
          intro q hqf hqp
          simp [hp, hpc, hfc, hrn, hrm, hcp, upd, fsUpd, hqf, hqp]

/-- All recorder state attached to key `k` agrees between `st` and `st'`:
the five dictionary entries and every file whose path belongs to `k`. -/
def frameK (k : String) (st st' : RecState) : Prop :=
  st'.files k = st.files k ∧ st'.paths k = st.paths k ∧ st'.meta k = st.meta k ∧
  st'.stats k = st.stats k ∧ st'.inplay k = st.inplay k ∧
  ∀ q : FPath, q.mid = k → st'.fs q = st.fs q

theorem frameK_refl (k : String) (st : RecState) : frameK k st st :=
  ⟨rfl, rfl, rfl, rfl, rfl, fun _ _ => rfl⟩

theorem frameK_trans {k : String} {s1 s2 s3 : RecState}
    (h12 : frameK k s1 s2) (h23 : frameK k s2 s3) : frameK k s1 s3 := by
  obtain ⟨a1, a2, a3, a4, a5, a6⟩ := h12
  obtain ⟨b1, b2, b3, b4, b5, b6⟩ := h23
  exact ⟨b1.trans a1, b2.trans a2, b3.trans a3, b4.trans a4, b5.trans a5,
    fun q hq => (b6 q hq).trans (a6 q hq)⟩

theorem ensurePaths_wf (today : String) (st : RecState) (mid : String)
    (hwf : pathsWF st) : pathsWF (ensurePaths today st mid).2 := by
  intro x fp pp hx
  by_cases hxm : x = mid
  · subst hxm
    have hx' : some (pathOfMeta x today (st.meta x)) = some (fp, pp) := by
      rw [← hx]
      exact (upd_same _ _ _).symm
    have h2 := Option.some.inj hx'
    exact ⟨(congrArg (fun p => Prod.fst p |> FPath.mid) h2).symm,
           (congrArg (fun p => Prod.snd p |> FPath.mid) h2).symm,
           (congrArg (fun p => Prod.fst p |> FPath.isPart) h2).symm,
           (congrArg (fun p => Prod.snd p |> FPath.isPart) h2).symm⟩
  · rw [show (ensurePaths today st mid).2.paths x = st.paths x from
        upd_other _ _ _ _ hxm] at hx
    exact hwf _ _ _ hx

theorem ensurePaths_frame {k : String} (today : String) (st : RecState) (mid : String)
    (h : k ≠ mid) : frameK k st (ensurePaths today st mid).2 :=
  ⟨rfl, upd_other _ _ _ _ h, rfl, rfl, rfl, fun _ _ => rfl⟩

/-! ## Characterization of `_open_if_needed` -/

theorem openIfNeeded_open {f : Faults} {today : String} {st : RecState} {mid : String}
    (h : st.files mid = true) : openIfNeeded f today st mid = .ok st := by
  simp [openIfNeeded, h]

theorem openIfNeeded_fresh {f : Faults} {today : String} {st : RecState} {mid : String}
    (h : st.files mid = false) (ho : f.openFails mid = false) :
    openIfNeeded f today st mid = .ok (openedState today st mid) := by
  simp [openIfNeeded, h, ho]

theorem openIfNeeded_fail {f : Faults} {today : String} {st : RecState} {mid : String}
    (h : st.files mid = false) (ho : f.openFails mid = true) :
    openIfNeeded f today st mid = .error (ensurePaths today st mid).2 := by
  simp [openIfNeeded, h, ho]

theorem openedState_comps (today : String) (st : RecState) (mid : String) :
    (openedState today st mid).files mid = true ∧
    (openedState today st mid).paths mid = some (pathOfMeta mid today (st.meta mid)) ∧
    (openedState today st mid).meta = st.meta ∧
    (openedState today st mid).inplay = st.inplay ∧
    (openedState today st mid).stats mid = Stats.fresh ∧
    (openedState today st mid).fs (pathOfMeta mid today (st.meta mid)).2 =
      some ((st.fs (pathOfMeta mid today (st.meta mid)).2).getD []) := by
  refine ⟨upd_same _ _ _, upd_same _ _ _, rfl, rfl, upd_same _ _ _, fsUpd_same _ _ _⟩

theorem openedState_other (today : String) (st : RecState) (mid : String) :
    (∀ x, x ≠ mid → (openedState today st mid).files x = st.files x ∧
      (openedState today st mid).paths x = st.paths x ∧
      (openedState today st mid).stats x = st.stats x) ∧
    ∀ q, q ≠ (pathOfMeta mid today (st.meta mid)).2 →
      (openedState today st mid).fs q = st.fs q := by
  constructor
  · intro x hx
    exact ⟨upd_other _ _ _ _ hx, upd_other _ _ _ _ hx, upd_other _ _ _ _ hx⟩
  · intro q hq
    exact fsUpd_other _ _ _ _ hq

theorem openedState_wf (today : String) (st : RecState) (mid : String)
    (hwf : pathsWF st) : pathsWF (openedState today st mid) := by
  intro x fp pp hx
  by_cases hxm : x = mid
  · subst hxm
    rw [(openedState_comps today st x).2.1] at hx
    refine ensurePaths_wf today st x hwf x fp pp ?_
    show upd st.paths x (some (pathOfMeta x today (st.meta x))) x = some (fp, pp)
    rw [upd_same]
    exact hx
  · rw [((openedState_other today st mid).1 x hxm).2.1] at hx
    exact hwf _ _ _ hx

theorem openedState_frame {k : String} (today : String) (st : RecState) (mid : String)
    (h : k ≠ mid) : frameK k st (openedState today st mid) := by
  obtain ⟨h1, h2, h3⟩ := (openedState_other today st mid).1 k h
  refine ⟨h1, h2, rfl, h3, rfl, ?_⟩
  intro q hq
  refine (openedState_other today st mid).2 q ?_
  intro hqe
  have : q.mid = mid := by rw [hqe]; exact pathOfMeta_snd_mid mid today _
  rw [hq] at this
  exact h this

theorem closeAndFinalize_frame {k : String} (f : Faults) (st : RecState) (g : String)
    (hg : g ≠ k) (hwf : pathsWF st) : frameK k st (closeAndFinalize f st g) := by
  obtain ⟨h1, h2, h3, h4, h5⟩ := closeAndFinalize_comps f st g
  refine ⟨?_, by rw [h2], by rw [h3], by rw [h4], by rw [h5], ?_⟩
  · rw [h1, upd_other _ _ _ _ (fun h => hg h.symm)]
  · intro q hq
    exact closeAndFinalize_fs_frame f st g hwf q (by rw [hq]; exact fun h => hg h.symm)

/-- Processing an `mc` entry of a different market never touches key `k`'s
state or files, and (absent an open fault for that market) never lets an
exception escape. -/
theorem procMC_frame (f : Faults) (today : String) (pt : Option PyVal) (ln : RawLine)
    {k : String} (mc : MC) (st : RecState)
    (hne : mc.id.getD "" ≠ k) (hopen : f.openFails (mc.id.getD "") = false)
    (hwf : pathsWF st) :
    ∃ st', procMC f today pt ln st mc = .ok st' ∧ frameK k st st' ∧ pathsWF st' := by
  by_cases hg0 : mc.id.getD "" = ""
  · exact ⟨st, by simp [procMC, hg0], frameK_refl k st, hwf⟩
  · have hkg : k ≠ mc.id.getD "" := fun h => hne h.symm
    -- the state after the definition merge
    set g := mc.id.getD "" with hgdef
    set st1 : RecState :=
      (match mc.marketDefinition with
       | some md =>
           { st with meta := upd st.meta g (applyDef md (st.meta g)),
                     inplay := upd st.inplay g (applyInplay md (st.inplay g)) }
       | none => st) with hst1
    have hfr1 : frameK k st st1 := by
      cases hmd : mc.marketDefinition with
      | none => simp only [hst1, hmd]; exact frameK_refl k st
      | some md =>
          simp only [hst1, hmd]
          exact ⟨rfl, rfl, upd_other _ _ _ _ hkg, rfl, upd_other _ _ _ _ hkg, fun _ _ => rfl⟩
    have hwf1 : pathsWF st1 := by
      cases hmd : mc.marketDefinition with
      | none => simp only [hst1, hmd]; exact hwf
      | some md =>
          simp only [hst1, hmd]
          intro x fp pp hx
          exact hwf _ _ _ hx
    have hproc : procMC f today pt ln st mc =
        (if st1.inplay g = false then .ok st1
         else
           match openIfNeeded f today st1 g with
           | .error e => .error e
           | .ok st2 =>
             if st2.files g then
               if f.writeFails g then .ok (closeAndFinalize f st2 g)
               else .ok (afterWrite f pt ln mc (writeLine st2 g ln) g)
             else .ok (afterWrite f pt ln mc st2 g)) := by
      simp only [procMC, ← hgdef, if_neg hg0, hst1]
    by_cases hip : st1.inplay g = false
    · exact ⟨st1, by rw [hproc, if_pos hip], hfr1, hwf1⟩
    · -- gate passes: the open step
      obtain ⟨st2, hopen2, hfr2, hwf2⟩ :
          ∃ st2, openIfNeeded f today st1 g = .ok st2 ∧ frameK k st1 st2 ∧ pathsWF st2 := by
        by_cases hfil : st1.files g = true
        · exact ⟨st1, openIfNeeded_open hfil, frameK_refl k st1, hwf1⟩
        · have hfil' : st1.files g = false := by simpa using hfil
          exact ⟨openedState today st1 g, openIfNeeded_fresh hfil' hopen,
            openedState_frame today st1 g hkg, openedState_wf today st1 g hwf1⟩
      -- the write / stats / close steps
      have hwrF : frameK k st2 (writeLine st2 g ln) := by
        unfold writeLine
        cases hpg : st2.paths g with
        | none => exact frameK_refl k st2
        | some pr =>
            obtain ⟨_, h2, _, _⟩ := hwf2 _ _ _ hpg
            refine ⟨rfl, rfl, rfl, rfl, rfl, ?_⟩
            intro q hq
            refine fsUpd_other _ _ _ _ ?_
            intro hqe
            rw [hqe, h2] at hq
            exact hkg hq.symm
      have hwrW : pathsWF (writeLine st2 g ln) := by
        unfold writeLine
        cases hpg : st2.paths g with
        | none => exact hwf2
        | some pr => intro x fp pp hx; exact hwf2 _ _ _ hx
      have hafter : ∀ s, frameK k st2 s → pathsWF s →
          frameK k st2 (afterWrite f pt ln mc s g) ∧ pathsWF (afterWrite f pt ln mc s g) := by
        intro s hfrs hwfs
        have hrs : frameK k s (recordStats pt ln s g) :=
          ⟨rfl, rfl, rfl, upd_other _ _ _ _ hkg, rfl, fun _ _ => rfl⟩
        have hrsW : pathsWF (recordStats pt ln s g) := by
          intro x fp pp hx; exact hwfs _ _ _ hx
        unfold afterWrite
        cases hmd : mc.marketDefinition with
        | none => exact ⟨frameK_trans hfrs hrs, hrsW⟩
        | some md =>
            by_cases hcl : statusClosed md
            · simp only [hcl, if_true]
              exact ⟨frameK_trans hfrs (frameK_trans hrs
                  (closeAndFinalize_frame f _ g (fun h => hkg h.symm) hrsW)),
                closeAndFinalize_wf f _ g hrsW⟩
            · simp only [hcl, Bool.false_eq_true, if_false]
              exact ⟨frameK_trans hfrs hrs, hrsW⟩
      by_cases hfil2 : st2.files g
      · by_cases hwr : f.writeFails g
        · refine ⟨closeAndFinalize f st2 g, ?_, ?_, ?_⟩
          · rw [hproc, if_neg hip, hopen2]
            simp [hfil2, hwr]
          · exact frameK_trans hfr1 (frameK_trans hfr2
              (closeAndFinalize_frame f st2 g (fun h => hkg h.symm) hwf2))
          · exact closeAndFinalize_wf f st2 g hwf2
        · obtain ⟨hfr3, hwf3⟩ := hafter (writeLine st2 g ln) hwrF hwrW
          refine ⟨_, ?_, frameK_trans hfr1 (frameK_trans hfr2 hfr3), hwf3⟩
          rw [hproc, if_neg hip, hopen2]
          simp [hfil2, hwr]
      · obtain ⟨hfr3, hwf3⟩ := hafter st2 (frameK_refl k st2) hwf2
        refine ⟨_, ?_, frameK_trans hfr1 (frameK_trans hfr2 hfr3), hwf3⟩
        rw [hproc, if_neg hip, hopen2]
        simp [hfil2]

/-! ## Characterization of the write and stats steps -/

theorem noFaults_openFails (m : String) : noFaults.openFails m = false := rfl

theorem noFaults_writeFails (m : String) : noFaults.writeFails m = false := rfl

theorem pathsWF_congr {st st' : RecState} (h : st'.paths = st.paths)
    (hwf : pathsWF st) : pathsWF st' := by
  intro x fp pp hx
  rw [h] at hx
  exact hwf _ _ _ hx

theorem writeLine_comps (st : RecState) (mid : String) (ln : RawLine) :
    (writeLine st mid ln).files = st.files ∧ (writeLine st mid ln).paths = st.paths ∧
    (writeLine st mid ln).meta = st.meta ∧ (writeLine st mid ln).stats = st.stats ∧
    (writeLine st mid ln).inplay = st.inplay := by
  unfold writeLine
  split
  all_goals exact ⟨rfl, rfl, rfl, rfl, rfl⟩

theorem writeLine_fs {st : RecState} {mid : String} {Pf Pp : FPath} (ln : RawLine)
    (hp : st.paths mid = some (Pf, Pp)) :
    (writeLine st mid ln).fs Pp = some ((st.fs Pp).getD [] ++ [ln]) ∧
    ∀ q, q ≠ Pp → (writeLine st mid ln).fs q = st.fs q := by
  unfold writeLine
  simp only [hp]
  exact ⟨fsUpd_same _ _ _, fun q hq => fsUpd_other _ _ _ _ hq⟩

theorem recordStats_comps (pt : Option PyVal) (ln : RawLine) (st : RecState)
    (mid : String) :
    (recordStats pt ln st mid).files = st.files ∧
    (recordStats pt ln st mid).paths = st.paths ∧
    (recordStats pt ln st mid).meta = st.meta ∧
    (recordStats pt ln st mid).inplay = st.inplay ∧
    (recordStats pt ln st mid).fs = st.fs :=
  ⟨rfl, rfl, rfl, rfl, rfl⟩

/-- The gate-passing path of the `mc` loop body for the key itself, with no
fault injected for that key: the line is appended to the `.part` file, and a
`CLOSED` definition additionally closes the writer and finalizes, in that
order.  The invariant moves from `acc` to `acc ++ [ln]`. -/
theorem procK_write (f : Faults) {k today : String} {Pf Pp : FPath} (pt : Option PyVal)
    (ln : RawLine) (mc : MC) {st1 : RecState} {g' : GSt} {acc : List RawLine}
    (hok : f.openFails k = false) (hw : f.writeFails k = false)
    (hrn : f.renameFails k = false) (hrm : f.removeFails k = false)
    (hcp : f.copyFailAfter k = none)
    (hinv : Inv k today Pf Pp st1 g' acc)
    (hstab : pathOfMeta k today g'.m = (Pf, Pp)) :
    ∃ st', (match openIfNeeded f today st1 k with
            | .error e => Except.error e
            | .ok st2 =>
              if st2.files k then
                if f.writeFails k then Except.ok (closeAndFinalize f st2 k)
                else Except.ok (afterWrite f pt ln mc (writeLine st2 k ln) k)
              else Except.ok (afterWrite f pt ln mc st2 k)) = .ok st' ∧
      Inv k today Pf Pp st' g' (acc ++ [ln]) ∧
      (∀ md, mc.marketDefinition = some md → statusClosed md = true →
        st'.files k = false ∧ st'.fs Pp = none) := by
  have hPfmid : Pf.mid = k := by
    have h1 : Pf = (pathOfMeta k today g'.m).1 := by rw [hstab]
    rw [h1]
    exact pathOfMeta_fst_mid k today g'.m
  have hPfpart : Pf.isPart = false := by
    have h1 : Pf = (pathOfMeta k today g'.m).1 := by rw [hstab]
    rw [h1]
    exact pathOfMeta_fst_isPart k today g'.m
  have hPppart : Pp.isPart = true := by
    have h1 : Pp = (pathOfMeta k today g'.m).2 := by rw [hstab]
    rw [h1]
    exact pathOfMeta_snd_isPart k today g'.m
  have hne : Pf ≠ Pp := fpath_ne_of_isPart hPfpart hPppart
  -- the opened state: in both branches we get an open writer on (Pf, Pp)
  obtain ⟨st2, hopeq, hInv2, hfil2, hpk2, hsome2⟩ :
      ∃ st2, openIfNeeded f today st1 k = .ok st2 ∧
        Inv k today Pf Pp st2 g' acc ∧ st2.files k = true ∧
        st2.paths k = some (Pf, Pp) ∧ (st2.fs Pp).isSome := by
    by_cases hfil : st1.files k = true
    · obtain ⟨hpk, hsome⟩ := hinv.filesK hfil
      exact ⟨st1, openIfNeeded_open hfil, hinv, hfil, hpk, hsome⟩
    · have hfil' : st1.files k = false := by simpa using hfil
      have hpm : pathOfMeta k today (st1.meta k) = (Pf, Pp) := by
        rw [hinv.meta]
        exact hstab
      obtain ⟨hc1, hc2, hc3, hc4, _, hc6⟩ := openedState_comps today st1 k
      have hpk : (openedState today st1 k).paths k = some (Pf, Pp) := by
        rw [hc2, hpm]
      have hfsPp : (openedState today st1 k).fs Pp = some ((st1.fs Pp).getD []) := by
        have := hc6
        rw [hpm] at this
        exact this
      have hfsPf : (openedState today st1 k).fs Pf = st1.fs Pf := by
        refine (openedState_other today st1 k).2 Pf ?_
        rw [hpm]
        exact hne
      refine ⟨openedState today st1 k, openIfNeeded_fresh hfil' hok, ?_, hc1, hpk, ?_⟩
      · refine ⟨?_, ?_, ?_, Or.inr hpk, fun _ => ⟨hpk, by rw [hfsPp]; rfl⟩, ?_, ?_⟩
        · rw [hc4]; exact hinv.ip
        · rw [hc3]; exact hinv.meta
        · rw [hfsPf, hfsPp]
          simpa using hinv.content
        · intro h
          rw [hpk] at h
          cases h
        · exact openedState_wf today st1 k hinv.wf
      · rw [hfsPp]; rfl
  rw [hopeq]
  simp only [hfil2, if_true, hw, Bool.false_eq_true, if_false, ite_false]
  -- the write
  obtain ⟨hwPp, hwq⟩ := writeLine_fs ln hpk2
  obtain ⟨hw1, hw2, hw3, hw4, hw5⟩ := writeLine_comps st2 k ln
  have hInv3 : Inv k today Pf Pp (writeLine st2 k ln) g' (acc ++ [ln]) := by
    refine ⟨?_, ?_, ?_, ?_, ?_, ?_, ?_⟩
    · rw [hw5]; exact hInv2.ip
    · rw [hw3]; exact hInv2.meta
    · rw [hwq Pf hne, hwPp]
      simp only [Option.getD_some]
      rw [← List.append_assoc, hInv2.content]
    · rw [hw2]; exact hInv2.pathsK
    · intro h
      rw [hw1] at h
      rw [hw2, hwPp]
      exact ⟨hpk2, rfl⟩
    · intro h
      rw [hw2, hpk2] at h
      cases h
    · exact pathsWF_congr hw2 hInv2.wf
  have hpk3 : (writeLine st2 k ln).paths k = some (Pf, Pp) := by
    rw [hw2]; exact hpk2
  -- stats and the CLOSED check
  obtain ⟨hr1, hr2, hr3, hr4, hr5⟩ :=
    recordStats_comps pt ln (writeLine st2 k ln) k
  have hInv4 : Inv k today Pf Pp (recordStats pt ln (writeLine st2 k ln) k) g'
      (acc ++ [ln]) := by
    refine ⟨?_, ?_, ?_, ?_, ?_, ?_, ?_⟩
    · rw [hr4]; exact hInv3.ip
    · rw [hr3]; exact hInv3.meta
    · rw [hr5]; exact hInv3.content
    · rw [hr2]; exact hInv3.pathsK
    · intro h
      rw [hr1] at h
      rw [hr2, hr5]
      exact hInv3.filesK h
    · intro h
      rw [hr2] at h
      rw [hr5]
      exact hInv3.noOpen h
    · exact pathsWF_congr hr2 hInv3.wf
  have hpk4 : (recordStats pt ln (writeLine st2 k ln) k).paths k = some (Pf, Pp) := by
    rw [hr2]; exact hpk3
  unfold afterWrite
  cases hmd : mc.marketDefinition with
  | none =>
      refine ⟨_, rfl, hInv4, ?_⟩
      intro md hmd'
      cases hmd'
  | some md =>
      by_cases hcl : statusClosed md = true
      · simp only [hcl, if_true]
        obtain ⟨hz1, hz2, hz3, hz4, hz5, _, hz7, hz8⟩ := closeAndFinalize_k f hrn hrm hcp hpk4 hne
        refine ⟨_, rfl, ?_, ?_⟩
        · refine ⟨?_, ?_, ?_, ?_, ?_, ?_, ?_⟩
          · rw [hz7]; exact hInv4.ip
          · rw [hz5]; exact hInv4.meta
          · rw [hz2]
            simp only [Option.getD_none, List.append_nil]
            rw [hz3]
            exact hInv4.content
          · rw [hz4]; exact hInv4.pathsK
          · intro h
            rw [hz1] at h
            cases h
          · intro h
            rw [hz4, hpk4] at h
            cases h
          · exact pathsWF_congr hz4 hInv4.wf
        · intro md' _ _
          exact ⟨hz1, hz2⟩
      · simp only [hcl, Bool.false_eq_true, if_false, ite_false]
        refine ⟨_, rfl, hInv4, ?_⟩
        intro md' hmd' hcl'
        cases hmd'
        exact absurd hcl' hcl

/-- Processing an `mc` entry of the tracked key preserves the run invariant
and advances the gate fold by one step; on an emitted entry whose definition
carries `CLOSED`, the writer ends closed and the `.part` finalized. -/
theorem procMC_k (f : Faults) {k today : String} {Pf Pp : FPath} (pt : Option PyVal)
    (ln : RawLine) {mc : MC} {st : RecState} {g : GSt} {acc : List RawLine}
    (hok : f.openFails k = false) (hw : f.writeFails k = false)
    (hrn : f.renameFails k = false) (hrm : f.removeFails k = false)
    (hcp : f.copyFailAfter k = none)
    (hk : ¬ k = "") (hmid : mc.id.getD "" = k)
    (hinv : Inv k today Pf Pp st g acc)
    (hstab : pathOfMeta k today (gateStep k g mc).m = (Pf, Pp)) :
    ∃ st', procMC f today pt ln st mc = .ok st' ∧
      Inv k today Pf Pp st' (gateStep k g mc)
        (acc ++ if gateEmit k g mc then [ln] else []) ∧
      (gateEmit k g mc = true →
        ∀ md, mc.marketDefinition = some md → statusClosed md = true →
          st'.files k = false ∧ st'.fs Pp = none) := by
  have hg0 : ¬ mc.id.getD "" = "" := by rw [hmid]; exact hk
  have hproc : procMC f today pt ln st mc =
      (let st1 : RecState :=
         match mc.marketDefinition with
         | some md =>
             { st with meta := upd st.meta k (applyDef md (st.meta k)),
                       inplay := upd st.inplay k (applyInplay md (st.inplay k)) }
         | none => st
       if st1.inplay k = false then .ok st1
       else
         match openIfNeeded f today st1 k with
         | .error e => Except.error e
         | .ok st2 =>
           if st2.files k then
             if f.writeFails k then Except.ok (closeAndFinalize f st2 k)
             else Except.ok (afterWrite f pt ln mc (writeLine st2 k ln) k)
           else Except.ok (afterWrite f pt ln mc st2 k)) := by
    simp only [procMC, hmid, if_neg hk]
  cases hmd : mc.marketDefinition with
  | none =>
      have hgs : gateStep k g mc = g := by
        simp [gateStep, hmid, hmd]
      have hge : gateEmit k g mc = g.ip := by
        simp [gateEmit, gateStep, hmid, hmd]
      rw [hgs] at hstab
      rw [hproc]
      simp only [hmd]
      rw [hgs, hge]
      cases hip : g.ip with
      | false =>
          have hip' : st.inplay k = false := by rw [hinv.ip, hip]
          rw [if_pos hip']
          refine ⟨st, rfl, ?_, ?_⟩
          · simpa using hinv
          · exact fun h => Bool.noConfusion h
      | true =>
          have hip' : ¬ st.inplay k = false := by
            rw [hinv.ip, hip]
            exact fun h => Bool.noConfusion h
          rw [if_neg hip']
          obtain ⟨st', heq, hInvRes, hClosed⟩ := procK_write f pt ln mc hok hw hrn hrm hcp hinv hstab
          exact ⟨st', heq, by simpa using hInvRes,
            fun _ md hmd' => Option.noConfusion hmd'⟩
  | some md =>
      have hgs : gateStep k g mc = ⟨applyInplay md g.ip, applyDef md g.m⟩ := by
        simp [gateStep, hmid, hmd]
      have hge : gateEmit k g mc = applyInplay md g.ip := by
        simp [gateEmit, gateStep, hmid, hmd]
      have hstab' : pathOfMeta k today
          (GSt.m ⟨applyInplay md g.ip, applyDef md g.m⟩) = (Pf, Pp) := by
        rw [← hgs]
        exact hstab
      rw [hproc]
      simp only [hmd]
      rw [hgs, hge]
      have hInv1 : Inv k today Pf Pp
          { st with meta := upd st.meta k (applyDef md (st.meta k)),
                    inplay := upd st.inplay k (applyInplay md (st.inplay k)) }
          ⟨applyInplay md g.ip, applyDef md g.m⟩ acc := by
        refine ⟨?_, ?_, hinv.content, hinv.pathsK, hinv.filesK, hinv.noOpen,
          pathsWF_congr rfl hinv.wf⟩
        · show upd st.inplay k (applyInplay md (st.inplay k)) k = applyInplay md g.ip
          rw [upd_same, hinv.ip]
        · show upd st.meta k (applyDef md (st.meta k)) k = applyDef md g.m
          rw [upd_same, hinv.meta]
      cases hip : applyInplay md g.ip with
      | false =>
          have hip' : upd st.inplay k (applyInplay md (st.inplay k)) k = false := by
            rw [upd_same, hinv.ip, hip]
          rw [if_pos hip']
          refine ⟨_, rfl, ?_, ?_⟩
          · rw [hip] at hInv1
            simpa using hInv1
          · exact fun h => Bool.noConfusion h
      | true =>
          have hip' : ¬ upd st.inplay k (applyInplay md (st.inplay k)) k = false := by
            rw [upd_same, hinv.ip, hip]
            exact fun h => by cases h
          rw [if_neg hip']
          obtain ⟨st', heq, hInvRes, hClosed⟩ := procK_write f pt ln mc hok hw hrn hrm hcp hInv1 hstab'
          refine ⟨st', heq, ?_, fun _ md' hmd' => hClosed md' (hmd.trans hmd')⟩
          rw [hip] at hInvRes
          simpa using hInvRes

/-- The invariant is insensitive to changes that leave all of key `k`'s state
and files alone. -/
theorem Inv_of_frame {k today : String} {Pf Pp : FPath} {st st' : RecState}
    {g : GSt} {acc : List RawLine} (hPf : Pf.mid = k) (hPp : Pp.mid = k)
    (hinv : Inv k today Pf Pp st g acc) (hfr : frameK k st st')
    (hwf' : pathsWF st') : Inv k today Pf Pp st' g acc := by
  obtain ⟨f1, f2, f3, f4, f5, f6⟩ := hfr
  refine ⟨f5.trans hinv.ip, f3.trans hinv.meta, ?_, ?_, ?_, ?_, hwf'⟩
  · rw [f6 Pf hPf, f6 Pp hPp]
    exact hinv.content
  · rw [f2]
    exact hinv.pathsK
  · intro h
    rw [f1] at h
    obtain ⟨a, b⟩ := hinv.filesK h
    rw [f2, f6 Pp hPp]
    exact ⟨a, b⟩
  · intro h
    rw [f2] at h
    rw [f6 Pf hPf, f6 Pp hPp]
    exact hinv.noOpen h

/-- The whole `mc` loop of one line preserves the run invariant, appending the
emitted copies of the line. -/
theorem procList_inv (f : Faults) {k today : String} {Pf Pp : FPath} (pt : Option PyVal)
    (ln : RawLine) (hof : ∀ m, f.openFails m = false) (hw : f.writeFails k = false)
    (hrn : f.renameFails k = false) (hrm : f.removeFails k = false)
    (hcp : f.copyFailAfter k = none)
    (hk : ¬ k = "") (hPf : Pf.mid = k) (hPp : Pp.mid = k) :
    ∀ (mcs : List MC) {st : RecState} {g : GSt} {acc : List RawLine},
      Inv k today Pf Pp st g acc →
      stableMCs k today (Pf, Pp) g mcs = true →
      ∃ st', procList f today pt ln st mcs = .ok st' ∧
        Inv k today Pf Pp st' (gateSteps k g mcs)
          (acc ++ List.replicate (gateCount k g mcs) ln)
  | [], st, g, acc, hinv, _ => by
      refine ⟨st, rfl, ?_⟩
      simpa [gateSteps, gateCount] using hinv
  | mc :: rest, st, g, acc, hinv, hstab => by
      have hstab' := hstab
      simp only [stableMCs, Bool.and_eq_true] at hstab'
      obtain ⟨h1, h2⟩ := hstab'
      by_cases hcase : mc.id.getD "" = k
      · have hp0 : pathOfMeta k today (gateStep k g mc).m = (Pf, Pp) := by
          rw [if_pos hcase] at h1
          exact of_decide_eq_true h1
        obtain ⟨st1, heq1, hinv1, _⟩ := procMC_k f pt ln (hof k) hw hrn hrm hcp hk hcase hinv hp0
        obtain ⟨st', heq2, hinv2⟩ :=
          procList_inv f pt ln hof hw hrn hrm hcp hk hPf hPp rest hinv1 h2
        refine ⟨st', ?_, ?_⟩
        · simp only [procList, heq1]
          exact heq2
        · simp only [gateSteps, gateCount]
          have : acc ++ (if gateEmit k g mc then [ln] else []) ++
              List.replicate (gateCount k (gateStep k g mc) rest) ln =
              acc ++ List.replicate ((if gateEmit k g mc then 1 else 0) +
                gateCount k (gateStep k g mc) rest) ln := by
            rw [List.replicate_add, List.append_assoc]
            cases gateEmit k g mc <;> simp
          rw [← this]
          exact hinv2
      · have hgs : gateStep k g mc = g := by
          simp [gateStep, hcase]
        have hge : gateEmit k g mc = false := by
          simp [gateEmit, hcase]
        obtain ⟨st1, heq1, hfr1, hwf1⟩ := procMC_frame f today pt ln mc st
          hcase (hof _) hinv.wf
        have hinv1 : Inv k today Pf Pp st1 g acc :=
          Inv_of_frame hPf hPp hinv hfr1 hwf1
        rw [hgs] at h2
        obtain ⟨st', heq2, hinv2⟩ :=
          procList_inv f pt ln hof hw hrn hrm hcp hk hPf hPp rest hinv1 h2
        refine ⟨st', ?_, ?_⟩
        · simp only [procList, heq1]
          exact heq2
        · simp only [gateSteps, gateCount, hgs, hge]
          simpa using hinv2

/-- One `on_data` call preserves the run invariant, appending the emitted
copies of the line. -/
theorem onData_inv (f : Faults) {k today : String} {Pf Pp : FPath} (ln : RawLine)
    (hof : ∀ m, f.openFails m = false) (hw : f.writeFails k = false)
    (hrn : f.renameFails k = false) (hrm : f.removeFails k = false)
    (hcp : f.copyFailAfter k = none)
    (hk : ¬ k = "") (hPf : Pf.mid = k) (hPp : Pp.mid = k)
    {st : RecState} {g : GSt} {acc : List RawLine}
    (hinv : Inv k today Pf Pp st g acc)
    (hstab : (if ln.hb || !ln.mcm then true
              else match ln.parsed with
                   | none => true
                   | some msg => stableMCs k today (Pf, Pp) g msg.mc) = true) :
    ∃ st', onData f today st ln = .ok st' ∧
      Inv k today Pf Pp st' (lineStep k g ln) (acc ++ lineEmit k g ln) := by
  by_cases hskip : (ln.hb || !ln.mcm) = true
  · refine ⟨st, by simp [onData, hskip], ?_⟩
    simpa [lineStep, lineEmit, hskip] using hinv
  · have hskip' : (ln.hb || !ln.mcm) = false := by simpa using hskip
    cases hpar : ln.parsed with
    | none =>
        refine ⟨st, by simp [onData, hskip', hpar], ?_⟩
        simpa [lineStep, lineEmit, hskip', hpar] using hinv
    | some msg =>
        rw [if_neg hskip, hpar] at hstab
        obtain ⟨st', heq, hinv'⟩ :=
          procList_inv f msg.pt ln hof hw hrn hrm hcp hk hPf hPp msg.mc hinv hstab
        refine ⟨st', ?_, ?_⟩
        · simpa [onData, hskip', hpar] using heq
        · simpa [lineStep, lineEmit, hskip', hpar] using hinv'

/-- A whole feed preserves the run invariant, appending all emitted lines. -/
theorem runFeed_inv (f : Faults) {k today : String} {Pf Pp : FPath}
    (hof : ∀ m, f.openFails m = false) (hw : f.writeFails k = false)
    (hrn : f.renameFails k = false) (hrm : f.removeFails k = false)
    (hcp : f.copyFailAfter k = none)
    (hk : ¬ k = "") (hPf : Pf.mid = k) (hPp : Pp.mid = k) :
    ∀ (ls : List RawLine) {st : RecState} {g : GSt} {acc : List RawLine},
      Inv k today Pf Pp st g acc →
      stableLines k today (Pf, Pp) g ls = true →
      ∃ st', runFeed f today st ls = .ok st' ∧
        Inv k today Pf Pp st' (lineSteps k g ls) (acc ++ occFrom k g ls)
  | [], st, g, acc, hinv, _ => by
      refine ⟨st, rfl, ?_⟩
      simpa [lineSteps, occFrom] using hinv
  | ln :: rest, st, g, acc, hinv, hstab => by
      have hstab' := hstab
      simp only [stableLines, Bool.and_eq_true] at hstab'
      obtain ⟨h1, h2⟩ := hstab'
      obtain ⟨st1, heq1, hinv1⟩ := onData_inv f ln hof hw hrn hrm hcp hk hPf hPp hinv h1
      obtain ⟨st', heq2, hinv2⟩ :=
        runFeed_inv f hof hw hrn hrm hcp hk hPf hPp rest hinv1 h2
      refine ⟨st', ?_, ?_⟩
      · simp only [runFeed, heq1]
        exact heq2
      · simp only [lineSteps, occFrom]
        rw [← List.append_assoc]
        exact hinv2

/-- The freshly constructed recorder satisfies the invariant with an empty
occurrence list. -/
theorem initState_inv (k today : String) (Pf Pp : FPath) :
    Inv k today Pf Pp initState gInit [] := by
  refine ⟨rfl, rfl, rfl, Or.inl rfl, ?_, fun _ => ⟨rfl, rfl⟩, ?_⟩
  · intro h
    cases h
  · intro x fp pp hx
    cases hx

/-- With no stored paths, `_close_and_finalize` only pops the writer. -/
theorem closeAndFinalize_nopaths (f : Faults) {st : RecState} {mid : String}
    (hp : st.paths mid = none) : (closeAndFinalize f st mid).fs = st.fs := by
  unfold closeAndFinalize flushFsync closeWriter finalizeFile
  simp [hp]

/-! ## Concrete feed lines used by witnesses and counterexamples -/

/-- A fixed current UTC day for concrete runs. -/
def tday : String := "2026-02-03"

/-- An activation line: a definition with `inPlay: true` for market `M`. -/
def L1 : RawLine :=
  { mcm := true, bytes := 10,
    parsed := some { pt := some (.vint 1),
                     mc := [{ id := some "M",
                              marketDefinition := some { inPlay := some (.vbool true) } }] } }

/-- A terminal line: a definition carrying only `status: "CLOSED"` for `M`. -/
def L2c : RawLine :=
  { mcm := true, bytes := 11,
    parsed := some { pt := some (.vint 2),
                     mc := [{ id := some "M",
                              marketDefinition := some { status := some (.vstr "CLOSED") } }] } }

/-- A plain data line for `M` with no definition. -/
def L3 : RawLine :=
  { mcm := true, bytes := 12,
    parsed := some { pt := some (.vint 3), mc := [{ id := some "M" }] } }

/-- A line whose `mc` list names market `M` twice: once with the activating
definition and once more without one. -/
def Ldup : RawLine :=
  { mcm := true, bytes := 9,
    parsed := some { pt := some (.vint 1),
                     mc := [{ id := some "M",
                              marketDefinition := some { inPlay := some (.vbool true) } },
                            { id := some "M" }] } }

/-- A definition clearing the gate and closing in the same message:
`inPlay: false, status: "CLOSED"`. -/
def L2off : RawLine :=
  { mcm := true, bytes := 13,
    parsed := some { pt := some (.vint 2),
                     mc := [{ id := some "M",
                              marketDefinition :=
                                some { inPlay := some (.vbool false),
                                       status := some (.vstr "CLOSED") } }] } }

/-- A definition whose `inPlay` key is present but null. -/
def LnullIP : RawLine :=
  { mcm := true, bytes := 14,
    parsed := some { pt := some (.vint 2),
                     mc := [{ id := some "M",
                              marketDefinition := some { inPlay := some .vnull } }] } }

/-- The final artifact path resolved for `M` when no definition supplied an
event type or start time. -/
def Pfin : FPath := ⟨"2026-02-03", "Unknown", "M", false⟩

/-- The `.part` companion of `Pfin`. -/
def Ppart : FPath := ⟨"2026-02-03", "Unknown", "M", true⟩

/-! ## Claim C1 — round-trip identity -/

/-- C1 (amended): over a fault-free run from a fresh recorder, provided every
path resolution for key `k` yields the same `(final, part)` pair, the final
artifact obtained after finalizing `k` decompresses to exactly the emitted
occurrence list: one copy of each input line per `mc` entry of `k` that passed
the in-play gate, in arrival order, interleaved with no other key's bytes, and
the `.part` file is gone.  (The original per-line subsequence reading fails
when one line names the key twice — see the counterexample.) -/
theorem roundtrip_identity_amended (k today : String) (Pf Pp : FPath)
    (ls : List RawLine) (hk : k ≠ "")
    (hPf : Pf.mid = k ∧ Pf.isPart = false) (hPp : Pp.mid = k ∧ Pp.isPart = true)
    (hstab : stableLines k today (Pf, Pp) gInit ls = true) :
    ∃ st, runFeed noFaults today initState ls = .ok st ∧
      (closeAndFinalize noFaults st k).fs Pp = none ∧
      ((closeAndFinalize noFaults st k).fs Pf).getD [] = occList k ls := by
  obtain ⟨st, heq, hinv⟩ :=
    runFeed_inv noFaults (fun _ => rfl) rfl rfl rfl rfl hk hPf.1 hPp.1 ls
      (initState_inv k today Pf Pp) hstab
  have hcontent : (st.fs Pf).getD [] ++ (st.fs Pp).getD [] = occList k ls := by
    have := hinv.content
    simpa [occList] using this
  have hne : Pf ≠ Pp := fpath_ne_of_isPart hPf.2 hPp.2
  refine ⟨st, heq, ?_⟩
  rcases hinv.pathsK with hnone | hsome
  · obtain ⟨ha, hb⟩ := hinv.noOpen hnone
    have hfs := closeAndFinalize_nopaths noFaults hnone
    rw [hfs, ha, hb]
    rw [ha, hb] at hcontent
    exact ⟨rfl, by simpa using hcontent⟩
  · obtain ⟨_, hz2, hz3, _⟩ := closeAndFinalize_k noFaults rfl rfl rfl hsome hne
    exact ⟨hz2, by rw [hz3]; exact hcontent⟩

/-- C1 witness: a concrete feed — activation, a `CLOSED` line (still gated
in), and a post-close line that reopens the `.part` — whose finalized artifact
is exactly the three emitted lines. -/
theorem roundtrip_identity_witness :
    ∃ st, runFeed noFaults tday initState [L1, L2c, L3] = .ok st ∧
      (closeAndFinalize noFaults st "M").fs Ppart = none ∧
      ((closeAndFinalize noFaults st "M").fs Pfin).getD [] =
        occList "M" [L1, L2c, L3] :=
  roundtrip_identity_amended "M" tday Pfin Ppart [L1, L2c, L3]
    (by decide) (by decide) (by decide) (by decide)

/-! ## Append lemmas for feeds -/

theorem lineSteps_append (k : String) (xs ys : List RawLine) (g : GSt) :
    lineSteps k g (xs ++ ys) = lineSteps k (lineSteps k g xs) ys := by
  induction xs generalizing g with
  | nil => rfl
  | cons x xs ih =>
      simp only [List.cons_append, lineSteps, List.append_eq, ih]

theorem occFrom_append (k : String) (xs ys : List RawLine) (g : GSt) :
    occFrom k g (xs ++ ys) = occFrom k g xs ++ occFrom k (lineSteps k g xs) ys := by
  induction xs generalizing g with
  | nil => rfl
  | cons x xs ih =>
      simp only [List.cons_append, occFrom, lineSteps, List.append_eq, ih,
        List.append_assoc]

theorem stableLines_append (k today : String) (P : FPath × FPath)
    (xs ys : List RawLine) (g : GSt) :
    stableLines k today P g (xs ++ ys) =
      (stableLines k today P g xs && stableLines k today P (lineSteps k g xs) ys) := by
  induction xs generalizing g with
  | nil => simp [stableLines, lineSteps]
  | cons x xs ih =>
      simp only [List.cons_append, stableLines, lineSteps, List.append_eq, ih,
        Bool.and_assoc]

theorem runFeed_append (f : Faults) (today : String) (xs ys : List RawLine)
    (st : RecState) :
    runFeed f today st (xs ++ ys) =
      match runFeed f today st xs with
      | .ok s => runFeed f today s ys
      | .error e => .error e := by
  induction xs generalizing st with
  | nil => simp [runFeed]
  | cons x xs ih =>
      simp only [List.cons_append, runFeed]
      cases onData f today st x with
      | error e => rfl
      | ok s => exact ih s

/-- C1 counterexample: the feed `[Ldup]` has a single line in which `M`'s gate
is true, so the claimed "ordered subsequence of the original input lines"
is `[Ldup]`; but the code appends the line once per `mc` entry of the key, so
the finalized artifact holds two copies. -/
theorem roundtrip_identity_counterexample :
    (closeAndFinalize noFaults (runState noFaults tday [Ldup]) "M").fs Pfin =
      some [Ldup, Ldup] ∧
    (closeAndFinalize noFaults (runState noFaults tday [Ldup]) "M").fs Pfin ≠
      some [Ldup] := by
  constructor
  · decide
  · decide

/-! ## Claim C2 — terminal-inclusion ordering -/

/-- C2 (amended): a message whose definition carries `CLOSED` for a key
triggers append-then-finalize only when it passes the in-play gate after the
definition is merged: the terminal line is then the last line of the final
artifact — N prior emitted lines plus the terminal line itself — the `.part`
is gone and the writer is closed.  When the same definition clears the gate,
neither the append nor the finalize happens (see the counterexample). -/
theorem terminal_inclusion_amended (k today : String) (Pf Pp : FPath)
    (pre : List RawLine) (t : RawLine) (ptv : Option PyVal) (md : MarketDef)
    (hk : k ≠ "") (hPf : Pf.mid = k ∧ Pf.isPart = false)
    (hPp : Pp.mid = k ∧ Pp.isPart = true)
    (ht1 : t.hb = false) (ht2 : t.mcm = true)
    (ht3 : t.parsed =
      some { pt := ptv, mc := [{ id := some k, marketDefinition := some md }] })
    (hcl : statusClosed md = true)
    (hip : applyInplay md (lineSteps k gInit pre).ip = true)
    (hstab : stableLines k today (Pf, Pp) gInit (pre ++ [t]) = true) :
    ∃ st, runFeed noFaults today initState (pre ++ [t]) = .ok st ∧
      st.files k = false ∧ st.fs Pp = none ∧
      (st.fs Pf).getD [] = occList k pre ++ [t] ∧
      ((st.fs Pf).getD []).length = (occList k pre).length + 1 := by
  rw [stableLines_append] at hstab
  rw [Bool.and_eq_true] at hstab
  obtain ⟨hstabPre, hstabT⟩ := hstab
  obtain ⟨st1, heqPre, hinvPre⟩ :=
    runFeed_inv noFaults (fun _ => rfl) rfl rfl rfl rfl hk hPf.1 hPp.1 pre
      (initState_inv k today Pf Pp) hstabPre
  simp only [List.nil_append] at hinvPre
  have hmid : (({ id := some k, marketDefinition := some md } : MC).id).getD "" = k := rfl
  have hstabMC : stableMCs k today (Pf, Pp) (lineSteps k gInit pre)
      [{ id := some k, marketDefinition := some md }] = true := by
    simp only [stableLines, ht1, ht2, ht3, Bool.or_false, Bool.not_true,
      Bool.and_true] at hstabT
    simpa using hstabT
  have hp0 : pathOfMeta k today
      (gateStep k (lineSteps k gInit pre)
        { id := some k, marketDefinition := some md }).m = (Pf, Pp) := by
    simp only [stableMCs, hmid, if_true, Bool.and_true, Bool.and_eq_true,
      decide_eq_true_eq] at hstabMC
    exact hstabMC
  obtain ⟨st', heqP, hinvT, hclosedT⟩ :=
    procMC_k noFaults ptv t rfl rfl rfl rfl rfl hk hmid hinvPre hp0
  have hemit : gateEmit k (lineSteps k gInit pre)
      { id := some k, marketDefinition := some md } = true := by
    simp [gateEmit, gateStep, hip]
  obtain ⟨hfiles, hpart⟩ := hclosedT hemit md rfl hcl
  have heqT : onData noFaults today st1 t = .ok st' := by
    simp only [onData, ht1, ht2, ht3, Bool.or_false, Bool.not_true, if_false,
      Bool.false_eq_true, ite_false, procList, heqP]
  have heqRun : runFeed noFaults today initState (pre ++ [t]) = .ok st' := by
    rw [runFeed_append, heqPre]
    simp only [runFeed, heqT]
  have hcontent : (st'.fs Pf).getD [] = occList k pre ++ [t] := by
    have hc := hinvT.content
    rw [hemit, hpart] at hc
    simpa [occList] using hc
  refine ⟨st', heqRun, hfiles, hpart, hcontent, ?_⟩
  rw [hcontent]
  simp

/-- C2 witness: activation then a still-gated `CLOSED` line — the artifact is
the two lines, the terminal line last. -/
theorem terminal_inclusion_witness :
    ∃ st, runFeed noFaults tday initState ([L1] ++ [L2c]) = .ok st ∧
      st.files "M" = false ∧ st.fs Ppart = none ∧
      (st.fs Pfin).getD [] = occList "M" [L1] ++ [L2c] ∧
      ((st.fs Pfin).getD []).length = (occList "M" [L1]).length + 1 :=
  terminal_inclusion_amended "M" tday Pfin Ppart [L1] L2c (some (.vint 2))
    { status := some (.vstr "CLOSED") }
    (by decide) (by decide) (by decide) (by decide) (by decide) (by decide)
    (by decide) (by decide) (by decide)

/-- C2 counterexample: when the terminal definition also clears `inPlay`
(`L2off`), the gate fails before the `CLOSED` check, so `finalize` is never
invoked for the key — the writer stays open and the `.part` remains — whereas
the claim asserts finalize is invoked for every terminal-status message. -/
theorem terminal_inclusion_counterexample :
    (runState noFaults tday [L1, L2off]).files "M" = true ∧
    (runState noFaults tday [L1, L2off]).fs Ppart = some [L1] ∧
    (runState noFaults tday [L1, L2off]).fs Pfin = none := by
  exact ⟨by decide, by decide, by decide⟩

/-! ## Claim C4 — terminal-state invariant -/

/-- C4 (amended): when a `CLOSED` definition passes the in-play gate, the
key's writer is closed and its `.part` finalized at that point — but the
terminal status is not latched anywhere: the in-play flag keeps exactly the
value the definition left it, so subsequent messages for the key (while that
flag is true) reopen a fresh `.part` and append again, and a later finalize
merges that content (see the counterexample for the post-terminal append). -/
theorem terminal_state_amended (k today : String) (Pf Pp : FPath)
    (pre : List RawLine) (t : RawLine) (ptv : Option PyVal) (md : MarketDef)
    (hk : k ≠ "") (hPf : Pf.mid = k ∧ Pf.isPart = false)
    (hPp : Pp.mid = k ∧ Pp.isPart = true)
    (ht1 : t.hb = false) (ht2 : t.mcm = true)
    (ht3 : t.parsed =
      some { pt := ptv, mc := [{ id := some k, marketDefinition := some md }] })
    (hcl : statusClosed md = true)
    (hip : applyInplay md (lineSteps k gInit pre).ip = true)
    (hstab : stableLines k today (Pf, Pp) gInit (pre ++ [t]) = true) :
    ∃ st, runFeed noFaults today initState (pre ++ [t]) = .ok st ∧
      st.files k = false ∧ st.fs Pp = none ∧ st.inplay k = true := by
  rw [stableLines_append] at hstab
  rw [Bool.and_eq_true] at hstab
  obtain ⟨hstabPre, hstabT⟩ := hstab
  obtain ⟨st1, heqPre, hinvPre⟩ :=
    runFeed_inv noFaults (fun _ => rfl) rfl rfl rfl rfl hk hPf.1 hPp.1 pre
      (initState_inv k today Pf Pp) hstabPre
  simp only [List.nil_append] at hinvPre
  have hmid : (({ id := some k, marketDefinition := some md } : MC).id).getD "" = k := rfl
  have hstabMC : stableMCs k today (Pf, Pp) (lineSteps k gInit pre)
      [{ id := some k, marketDefinition := some md }] = true := by
    simp only [stableLines, ht1, ht2, ht3, Bool.or_false, Bool.not_true,
      Bool.and_true] at hstabT
    simpa using hstabT
  have hp0 : pathOfMeta k today
      (gateStep k (lineSteps k gInit pre)
        { id := some k, marketDefinition := some md }).m = (Pf, Pp) := by
    simp only [stableMCs, hmid, if_true, Bool.and_true, Bool.and_eq_true,
      decide_eq_true_eq] at hstabMC
    exact hstabMC
  obtain ⟨st', heqP, hinvT, hclosedT⟩ :=
    procMC_k noFaults ptv t rfl rfl rfl rfl rfl hk hmid hinvPre hp0
  have hemit : gateEmit k (lineSteps k gInit pre)
      { id := some k, marketDefinition := some md } = true := by
    simp [gateEmit, gateStep, hip]
  obtain ⟨hfiles, hpart⟩ := hclosedT hemit md rfl hcl
  have heqT : onData noFaults today st1 t = .ok st' := by
    simp only [onData, ht1, ht2, ht3, Bool.or_false, Bool.not_true, if_false,
      Bool.false_eq_true, ite_false, procList, heqP]
  have heqRun : runFeed noFaults today initState (pre ++ [t]) = .ok st' := by
    rw [runFeed_append, heqPre]
    simp only [runFeed, heqT]
  have hflag : st'.inplay k = true := by
    have h := hinvT.ip
    rw [h]
    simpa [gateStep] using hip
  exact ⟨st', heqRun, hfiles, hpart, hflag⟩

/-- C4 witness: activation, gated terminal line, run ends with the writer
closed, the `.part` finalized, and the in-play flag still set. -/
theorem terminal_state_witness :
    ∃ st, runFeed noFaults tday initState ([L1] ++ [L2c]) = .ok st ∧
      st.files "M" = false ∧ st.fs Ppart = none ∧ st.inplay "M" = true :=
  terminal_state_amended "M" tday Pfin Ppart [L1] L2c (some (.vint 2))
    { status := some (.vstr "CLOSED") }
    (by decide) (by decide) (by decide) (by decide) (by decide) (by decide)
    (by decide) (by decide) (by decide)

/-- C4 counterexample: after the terminal (`CLOSED`) line `L2c` has been
observed and finalized, the plain data line `L3` for the same key is appended
again — a fresh `.part` holding `L3` exists — contradicting the claim that no
appends occur for a key once a terminal status was observed. -/
theorem terminal_state_counterexample :
    (runState noFaults tday [L1, L2c]).fs Pfin = some [L1, L2c] ∧
    (runState noFaults tday [L1, L2c]).fs Ppart = none ∧
    (runState noFaults tday [L1, L2c, L3]).fs Ppart = some [L3] := by
  exact ⟨by decide, by decide, by decide⟩

/-! ## Claim C3 — finalize idempotence -/

theorem finalizeFile_noop_nopaths {f : Faults} {st : RecState} {mid : String}
    (hp : st.paths mid = none) : finalizeFile f st mid = st := by
  unfold finalizeFile
  simp [hp]

theorem finalizeFile_noop_nopart {f : Faults} {st : RecState} {mid : String}
    {fp pp : FPath} (hp : st.paths mid = some (fp, pp)) (hpc : st.fs pp = none) :
    finalizeFile f st mid = st := by
  unfold finalizeFile
  simp [hp, hpc]

/-- C3 (amended): in the fault-free environment a second `_finalize_file`
call after a completed first one is a no-op, and so is any call when the
`.part` file does not exist (or no paths were ever resolved); but a call on
an existing zero-length `.part` is *not* a no-op — it renames or merges the
empty file (see the counterexample). -/
theorem finalize_idempotence_amended (st : RecState) (k : String) :
    finalizeFile noFaults (finalizeFile noFaults st k) k = finalizeFile noFaults st k ∧
    (∀ f : Faults, st.paths k = none → finalizeFile f st k = st) ∧
    (∀ (f : Faults) (fp pp : FPath), st.paths k = some (fp, pp) → st.fs pp = none →
      finalizeFile f st k = st) := by
  refine ⟨?_, fun f hp => finalizeFile_noop_nopaths hp,
    fun f fp pp hp hpc => finalizeFile_noop_nopart hp hpc⟩
  cases hp : st.paths k with
  | none =>
      have h1 : finalizeFile noFaults st k = st := finalizeFile_noop_nopaths hp
      rw [h1]
      exact h1
  | some pr =>
      obtain ⟨fp, pp⟩ := pr
      cases hpc : st.fs pp with
      | none =>
          have h1 : finalizeFile noFaults st k = st := finalizeFile_noop_nopart hp hpc
          rw [h1]
          exact h1
      | some pc =>
          cases hfc : st.fs fp with
          | none =>
              have hne : pp ≠ fp := by
                intro h
                rw [h, hfc] at hpc
                cases hpc
              have h1 : finalizeFile noFaults st k =
                  { st with fs := fsUpd (fsUpd st.fs pp none) fp (some pc) } := by
                unfold finalizeFile
                simp [hp, hpc, hfc, noFaults]
              have hp1 : ({ st with fs := fsUpd (fsUpd st.fs pp none) fp (some pc) }
                  : RecState).paths k = some (fp, pp) := hp
              have hpc1 : ({ st with fs := fsUpd (fsUpd st.fs pp none) fp (some pc) }
                  : RecState).fs pp = none := by
                show fsUpd (fsUpd st.fs pp none) fp (some pc) pp = none
                rw [fsUpd_other _ _ _ _ hne, fsUpd_same]
              rw [h1]
              exact finalizeFile_noop_nopart hp1 hpc1
          | some fc =>
              have h1 : finalizeFile noFaults st k =
                  { st with fs := fsUpd (fsUpd st.fs fp (some (fc ++ pc))) pp none } := by
                unfold finalizeFile
                simp [hp, hpc, hfc, noFaults]
              have hp1 : ({ st with fs := fsUpd (fsUpd st.fs fp (some (fc ++ pc))) pp none }
                  : RecState).paths k = some (fp, pp) := hp
              have hpc1 : ({ st with fs := fsUpd (fsUpd st.fs fp (some (fc ++ pc))) pp none }
                  : RecState).fs pp = none := by
                show fsUpd (fsUpd st.fs fp (some (fc ++ pc))) pp none pp = none
                rw [fsUpd_same]
              rw [h1]
              exact finalizeFile_noop_nopart hp1 hpc1

/-- C3 witness: after a run that already finalized `M`, a further
`_finalize_file` pair collapses to one call; and on a run that never opened
the key (no paths), a call is the identity. -/
theorem finalize_idempotence_witness :
    finalizeFile noFaults
        (finalizeFile noFaults (runState noFaults tday [L1, L2c, L3]) "M") "M" =
      finalizeFile noFaults (runState noFaults tday [L1, L2c, L3]) "M" ∧
    finalizeFile noFaults (runState noFaults tday [L3]) "M" =
      runState noFaults tday [L3] :=
  ⟨(finalize_idempotence_amended (runState noFaults tday [L1, L2c, L3]) "M").1,
   (finalize_idempotence_amended (runState noFaults tday [L3]) "M").2.1 noFaults
     (by decide)⟩

/-- The recorder state right after `open(part_path, "ab")` created an empty
`.part` for `M` (paths resolved, no bytes written) — e.g. a crash or write
failure before the first line reached the compressor. -/
def stEmptyPart : RecState :=
  { initState with paths := upd initState.paths "M" (some (Pfin, Ppart)),
                   fs := fsUpd initState.fs Ppart (some []) }

/-- C3 counterexample: on an existing zero-length `.part` the code does
mutate the filesystem — `os.path.exists` is true, so the empty `.part` is
renamed onto the final path: the `.part` disappears and an empty final
artifact appears where none existed, contradicting the claimed no-op. -/
theorem finalize_idempotence_counterexample :
    stEmptyPart.fs Ppart = some [] ∧ stEmptyPart.fs Pfin = none ∧
    (finalizeFile noFaults stEmptyPart "M").fs Ppart = none ∧
    (finalizeFile noFaults stEmptyPart "M").fs Pfin = some [] := by
  exact ⟨by decide, by decide, by decide, by decide⟩

/-! ## Claim C5 — path determinism -/

/-- C5 (amended): whenever the stored start time parses as an ISO timestamp,
`market_paths` is a pure function of the key, the category and the parsed
start date — two resolutions on different days (different `today`) coincide,
and the result is exactly `BASE/<start date>/<evt>/<mid>.jsonl.gz` with its
`.part` companion.  Without a parseable start time the current day is
substituted, so resolutions on different days diverge (see the
counterexample). -/
theorem path_determinism_amended (mid evt : String) (startV : Option PyVal)
    (d : String) (h : iso_to_day startV = some d) (now1 now2 : String) :
    market_paths mid evt startV now1 = market_paths mid evt startV now2 ∧
    market_paths mid evt startV now1 =
      (⟨d, evt, mid, false⟩, ⟨d, evt, mid, true⟩) := by
  unfold market_paths market_base_day
  rw [h]
  exact ⟨rfl, rfl⟩

/-- C5 witness: a concrete market start time pins the path regardless of the
day the recorder happens to resolve it. -/
theorem path_determinism_witness :
    market_paths "1.23" "4" (some (.vstr "2026-05-01T10:00:00Z")) "2026-02-03" =
      market_paths "1.23" "4" (some (.vstr "2026-05-01T10:00:00Z")) "2027-12-31" ∧
    market_paths "1.23" "4" (some (.vstr "2026-05-01T10:00:00Z")) "2026-02-03" =
      (⟨"2026-05-01", "4", "1.23", false⟩, ⟨"2026-05-01", "4", "1.23", true⟩) :=
  path_determinism_amended "1.23" "4" (some (.vstr "2026-05-01T10:00:00Z"))
    "2026-05-01" (by decide) "2026-02-03" "2027-12-31"

/-- C5 counterexample: with no start time recorded (`iso_to_dt` returns
`None`), `market_base_dir` falls back to `utcnow()`, so the same key and
category resolve to different paths on different days — a crashed run resumed
the next day writes somewhere else, contradicting the claimed independence
from the wall clock. -/
theorem path_determinism_counterexample :
    market_paths "1.23" "4" none "2026-02-03" ≠
      market_paths "1.23" "4" none "2026-02-04" := by
  decide

/-! ## Claim C6 — per-key I/O error isolation -/

theorem openIfNeeded_total (f : Faults) (today : String) (st : RecState)
    (mid : String) (ho : f.openFails mid = false) :
    ∃ st', openIfNeeded f today st mid = .ok st' := by
  by_cases h : st.files mid = true
  · exact ⟨st, openIfNeeded_open h⟩
  · have h' : st.files mid = false := by simpa using h
    exact ⟨_, openIfNeeded_fresh h' ho⟩

theorem procTail_total (f : Faults) (today : String) (pt : Option PyVal)
    (ln : RawLine) (mc : MC) (g : String) (st1 : RecState)
    (ho : f.openFails g = false) :
    ∃ st', (if st1.inplay g = false then Except.ok st1
            else match openIfNeeded f today st1 g with
                 | .error e => Except.error e
                 | .ok st2 =>
                   if st2.files g then
                     if f.writeFails g then Except.ok (closeAndFinalize f st2 g)
                     else Except.ok (afterWrite f pt ln mc (writeLine st2 g ln) g)
                   else Except.ok (afterWrite f pt ln mc st2 g)) = .ok st' := by
  by_cases hip : st1.inplay g = false
  · exact ⟨st1, by rw [if_pos hip]⟩
  · rw [if_neg hip]
    obtain ⟨st2, h2⟩ := openIfNeeded_total f today st1 g ho
    rw [h2]
    by_cases hfil : st2.files g = true
    · by_cases hwr : f.writeFails g = true
      · exact ⟨closeAndFinalize f st2 g, by simp [hfil, hwr]⟩
      · exact ⟨afterWrite f pt ln mc (writeLine st2 g ln) g, by simp [hfil, hwr]⟩
    · have hfil' : st2.files g = false := by simpa using hfil
      exact ⟨afterWrite f pt ln mc st2 g, by simp [hfil']⟩

/-- Without open faults, the `mc` loop body never lets an exception escape. -/
theorem procMC_total (f : Faults) (today : String) (pt : Option PyVal)
    (ln : RawLine) (st : RecState) (mc : MC)
    (ho : f.openFails (mc.id.getD "") = false) :
    ∃ st', procMC f today pt ln st mc = .ok st' := by
  by_cases h0 : mc.id.getD "" = ""
  · exact ⟨st, by simp [procMC, h0]⟩
  · cases hmd : mc.marketDefinition with
    | none =>
        simp only [procMC, if_neg h0, hmd]
        exact procTail_total f today pt ln mc (mc.id.getD "") _ ho
    | some md =>
        simp only [procMC, if_neg h0, hmd]
        exact procTail_total f today pt ln mc (mc.id.getD "")
          { st with
            meta := upd st.meta (mc.id.getD "") (applyDef md (st.meta (mc.id.getD ""))),
            inplay := upd st.inplay (mc.id.getD "")
              (applyInplay md (st.inplay (mc.id.getD ""))) } ho

theorem procList_total (f : Faults) (today : String) (pt : Option PyVal)
    (ln : RawLine) (ho : ∀ m, f.openFails m = false) :
    ∀ (mcs : List MC) (st : RecState),
      ∃ st', procList f today pt ln st mcs = .ok st'
  | [], st => ⟨st, rfl⟩
  | mc :: rest, st => by
      obtain ⟨s1, h1⟩ := procMC_total f today pt ln st mc (ho _)
      obtain ⟨s2, h2⟩ := procList_total f today pt ln ho rest s1
      exact ⟨s2, by simp [procList, h1, h2]⟩

theorem onData_total (f : Faults) (today : String) (st : RecState) (ln : RawLine)
    (ho : ∀ m, f.openFails m = false) :
    ∃ st', onData f today st ln = .ok st' := by
  by_cases hskip : (ln.hb || !ln.mcm) = true
  · exact ⟨st, by simp [onData, hskip]⟩
  · have hskip' : (ln.hb || !ln.mcm) = false := by simpa using hskip
    cases hpar : ln.parsed with
    | none => exact ⟨st, by simp [onData, hskip', hpar]⟩
    | some msg =>
        obtain ⟨st', h⟩ := procList_total f today msg.pt ln ho msg.mc st
        exact ⟨st', by simp [onData, hskip', hpar, h]⟩

/-- Without open faults, the feed loop never aborts. -/
theorem runFeed_total (f : Faults) (today : String)
    (ho : ∀ m, f.openFails m = false) :
    ∀ (ls : List RawLine) (st : RecState),
      ∃ st', runFeed f today st ls = .ok st'
  | [], st => ⟨st, rfl⟩
  | ln :: rest, st => by
      obtain ⟨s1, h1⟩ := onData_total f today st ln ho
      obtain ⟨s2, h2⟩ := runFeed_total f today ho rest s1
      exact ⟨s2, by simp [runFeed, h1, h2]⟩

/-- C6 (amended): write, flush, close and finalize failures are contained —
with no open faults anywhere, no exception ever escapes `on_data`, and
arbitrary write/rename/copy/remove faults injected for other keys leave a
clean key's finalized artifact exactly equal to its gated occurrence list.
An exception inside `_open_if_needed` (`os.makedirs`/`open`), however, is not
caught and aborts the feed — see the counterexample. -/
theorem error_isolation_amended (f : Faults) (k today : String) (Pf Pp : FPath)
    (ls : List RawLine)
    (hof : ∀ m, f.openFails m = false)
    (hw : f.writeFails k = false) (hrn : f.renameFails k = false)
    (hrm : f.removeFails k = false) (hcp : f.copyFailAfter k = none)
    (hk : k ≠ "") (hPf : Pf.mid = k ∧ Pf.isPart = false)
    (hPp : Pp.mid = k ∧ Pp.isPart = true)
    (hstab : stableLines k today (Pf, Pp) gInit ls = true) :
    (∀ (st0 : RecState) (ls0 : List RawLine), ∃ st', runFeed f today st0 ls0 = .ok st') ∧
    ∃ st, runFeed f today initState ls = .ok st ∧
      (closeAndFinalize f st k).fs Pp = none ∧
      ((closeAndFinalize f st k).fs Pf).getD [] = occList k ls := by
  constructor
  · intro st0 ls0
    exact runFeed_total f today hof ls0 st0
  · obtain ⟨st, heq, hinv⟩ :=
      runFeed_inv f hof hw hrn hrm hcp hk hPf.1 hPp.1 ls
        (initState_inv k today Pf Pp) hstab
    have hcontent : (st.fs Pf).getD [] ++ (st.fs Pp).getD [] = occList k ls := by
      have := hinv.content
      simpa [occList] using this
    have hne : Pf ≠ Pp := fpath_ne_of_isPart hPf.2 hPp.2
    refine ⟨st, heq, ?_⟩
    rcases hinv.pathsK with hnone | hsome
    · obtain ⟨ha, hb⟩ := hinv.noOpen hnone
      have hfs := closeAndFinalize_nopaths f hnone
      rw [hfs, ha, hb]
      rw [ha, hb] at hcontent
      exact ⟨rfl, by simpa using hcontent⟩
    · obtain ⟨_, hz2, hz3, _⟩ := closeAndFinalize_k f hrn hrm hcp hsome hne
      exact ⟨hz2, by rw [hz3]; exact hcontent⟩

/-- An activation line for a second market `A` (used to inject a write fault
for `A` while observing `M`). -/
def LA : RawLine :=
  { mcm := true, bytes := 7,
    parsed := some { pt := some (.vint 1),
                     mc := [{ id := some "A",
                              marketDefinition := some { inPlay := some (.vbool true) } }] } }

/-- Faults: every write for market `A` raises; everything else succeeds. -/
def wA : Faults :=
  { noFaults with writeFails := fun m => decide (m = "A") }

/-- C6 witness: with `A`'s writes failing throughout, the feed never aborts
and `M`'s finalized artifact still holds exactly its gated lines. -/
theorem error_isolation_witness :
    (∃ st', runFeed wA tday initState [LA] = .ok st') ∧
    ∃ st, runFeed wA tday initState [LA, L1, L3] = .ok st ∧
      (closeAndFinalize wA st "M").fs Ppart = none ∧
      ((closeAndFinalize wA st "M").fs Pfin).getD [] =
        occList "M" [LA, L1, L3] := by
  have h := error_isolation_amended wA "M" tday Pfin Ppart [LA, L1, L3]
    (fun _ => rfl) (by decide) (by decide) (by decide) (by decide)
    (by decide) (by decide) (by decide) (by decide)
  exact ⟨h.1 initState [LA], h.2⟩

/-- Faults: opening market `M`'s `.part` file raises. -/
def oM : Faults :=
  { noFaults with openFails := fun m => decide (m = "M") }

/-- Whether an exception escaped. -/
def isError (e : Except RecState RecState) : Bool :=
  match e with
  | .error _ => true
  | .ok _ => false

/-- C6 counterexample: `_open_if_needed` has no try/except — an `open` (or
`os.makedirs`) failure while processing `M`'s first in-play line propagates
out of `on_data` and aborts the feed loop, whereas the claim says no I/O
exception (open included) ever escapes. -/
theorem error_isolation_counterexample :
    isError (onData oM tday initState L1) = true := by
  decide

/-! ## Claim C7 — definition-merge monotonicity -/

/-- C7 (amended): the merge keeps previously known values for absent fields,
but override is governed by Python truthiness, not nullness — `eventTypeId`
overrides whenever `md.get` is non-None, `marketTime`/`name` only when the
value is truthy (a non-null empty string does not override), and the
activation flag is overwritten whenever an `inPlay` (or else `inplay`) key is
present, with `bool(value)`: a present-but-null `inPlay` resets the flag to
false (see the counterexample). -/
theorem definition_merge_amended (md : MarketDef) (m : Meta) (ip : Bool) :
    (pyGet md.eventTypeId = PyVal.vnull →
      (applyDef md m).eventTypeId = m.eventTypeId) ∧
    (pyGet md.eventTypeId ≠ PyVal.vnull →
      (applyDef md m).eventTypeId = some (pyGet md.eventTypeId).pyStr) ∧
    ((pyGet md.marketTime).toBool = false →
      (applyDef md m).marketTime = m.marketTime) ∧
    ((pyGet md.marketTime).toBool = true →
      (applyDef md m).marketTime = md.marketTime) ∧
    ((pyGet md.name).toBool = false →
      (applyDef md m).marketName = m.marketName) ∧
    ((pyGet md.name).toBool = true →
      (applyDef md m).marketName = md.name) ∧
    (md.inPlay = none → md.inplayLC = none → applyInplay md ip = ip) ∧
    (∀ v, md.inPlay = some v → applyInplay md ip = v.toBool) ∧
    (md.inPlay = none → ∀ v, md.inplayLC = some v → applyInplay md ip = v.toBool) := by
  refine ⟨?_, ?_, ?_, ?_, ?_, ?_, ?_, ?_, ?_⟩
  · intro h
    simp only [applyDef, h]
    repeat' split
    all_goals first
      | rfl
      | simp_all
  · intro h
    cases hv : pyGet md.eventTypeId with
    | vnull => exact absurd hv h
    | vbool b =>
        simp only [applyDef, hv]
        repeat' split
        all_goals first
          | rfl
          | simp_all
    | vint n =>
        simp only [applyDef, hv]
        repeat' split
        all_goals first
          | rfl
          | simp_all
    | vstr s =>
        simp only [applyDef, hv]
        repeat' split
        all_goals first
          | rfl
          | simp_all
  · intro h
    simp only [applyDef, h]
    repeat' split
    all_goals first
      | rfl
      | simp_all
  · intro h
    simp only [applyDef, h]
    repeat' split
    all_goals first
      | rfl
      | simp_all
  · intro h
    simp only [applyDef, h]
    repeat' split
    all_goals first
      | rfl
      | simp_all
  · intro h
    simp only [applyDef, h]
    repeat' split
    all_goals first
      | rfl
      | simp_all
  · intro h1 h2
    simp [applyInplay, h1, h2]
  · intro v h
    simp [applyInplay, h]
  · intro h1 v h2
    simp [applyInplay, h1, h2]

/-- C7 witness: a present-but-null `inPlay` forces the flag to `bool(None)`,
and the same fragment leaves the stored `marketTime` untouched. -/
theorem definition_merge_witness :
    applyInplay { inPlay := some PyVal.vnull } true = PyVal.vnull.toBool ∧
    (applyDef { inPlay := some PyVal.vnull } Meta.empty).marketTime =
      Meta.empty.marketTime :=
  ⟨(definition_merge_amended { inPlay := some PyVal.vnull } Meta.empty true).2.2.2.2.2.2.2.1
      PyVal.vnull rfl,
   (definition_merge_amended { inPlay := some PyVal.vnull } Meta.empty true).2.2.1
      (by decide)⟩

/-- C7 counterexample: after `M` is known active (`L1`), a definition
fragment whose `inPlay` key is present with JSON null (`LnullIP`) *clears*
the stored activation flag — `bool(None)` is false — contradicting the claim
that null fields never overwrite previously known values. -/
theorem definition_merge_counterexample :
    (runState noFaults tday [L1]).inplay "M" = true ∧
    (runState noFaults tday [L1, LnullIP]).inplay "M" = false := by
  exact ⟨by decide, by decide⟩

/-! ## Claim C8 — stats monotonicity -/

/-- C8 (amended): on every accepted append the stats record of the open
segment gains one line and the written byte length, `first_pt` is set only if
still unset and only by a truthy `pt`, `last_pt` is refreshed only by a
truthy `pt` (an append without a timestamp leaves both untouched); these
counters are per-segment: `_open_if_needed` resets them to zero on every
fresh open, so a reopen after a finalize restarts the counts (see the
counterexample). -/
theorem stats_update_amended (f : Faults) (k today : String) (ptv : Option PyVal)
    (ln : RawLine) (st : RecState)
    (hk : ¬ k = "")
    (ht1 : ln.hb = false) (ht2 : ln.mcm = true)
    (ht3 : ln.parsed = some { pt := ptv, mc := [{ id := some k }] })
    (hip : st.inplay k = true) (hfil : st.files k = true)
    (hw : f.writeFails k = false) :
    ∃ st', onData f today st ln = .ok st' ∧
      (st'.stats k).lines = (st.stats k).lines + 1 ∧
      (st'.stats k).bytes = (st.stats k).bytes + ln.bytes ∧
      ((pyGet ptv).toBool = true →
        (st'.stats k).last_pt = ptv ∧
        (st'.stats k).first_pt =
          (if (st.stats k).first_pt = none then ptv else (st.stats k).first_pt)) ∧
      ((pyGet ptv).toBool = false →
        (st'.stats k).last_pt = (st.stats k).last_pt ∧
        (st'.stats k).first_pt = (st.stats k).first_pt) := by
  have hip' : ¬ st.inplay k = false := by
    rw [hip]
    exact fun h => Bool.noConfusion h
  have hskip : (ln.hb || !ln.mcm) = false := by rw [ht1, ht2]; rfl
  have heq : onData f today st ln =
      .ok (recordStats ptv ln (writeLine st k ln) k) := by
    simp only [onData, hskip, Bool.false_eq_true, if_false, ite_false, ht3,
      procList, procMC, Option.getD_some, if_neg hk, if_neg hip',
      openIfNeeded_open hfil, hfil, if_true, hw, afterWrite]
  have hws : (writeLine st k ln).stats = st.stats :=
    (writeLine_comps st k ln).2.2.2.1
  refine ⟨recordStats ptv ln (writeLine st k ln) k, heq, ?_⟩
  have h :
      (recordStats ptv ln (writeLine st k ln) k).stats k =
        (if (pyGet ptv).toBool then
          { lines := (st.stats k).lines + 1, bytes := (st.stats k).bytes + ln.bytes,
            first_pt := (if (st.stats k).first_pt = none then ptv
                         else (st.stats k).first_pt),
            last_pt := ptv }
         else
          { lines := (st.stats k).lines + 1, bytes := (st.stats k).bytes + ln.bytes,
            first_pt := (st.stats k).first_pt, last_pt := (st.stats k).last_pt }) := by
    simp only [recordStats, hws, upd_same]
  by_cases hpt : (pyGet ptv).toBool = true
  · rw [h, if_pos hpt]
    refine ⟨rfl, rfl, fun _ => ⟨rfl, rfl⟩, fun hcontra => ?_⟩
    rw [hpt] at hcontra
    cases hcontra
  · have hpt' : (pyGet ptv).toBool = false := by simpa using hpt
    rw [h, if_neg hpt]
    refine ⟨rfl, rfl, fun hcontra => ?_, fun _ => ⟨rfl, rfl⟩⟩
    rw [hpt'] at hcontra
    cases hcontra

/-- C8 witness: an accepted append with a truthy timestamp onto the already
open market of the `[L1]` run. -/
theorem stats_update_witness :
    ∃ st', onData noFaults tday (runState noFaults tday [L1]) L3 = .ok st' ∧
      (st'.stats "M").lines = ((runState noFaults tday [L1]).stats "M").lines + 1 ∧
      (st'.stats "M").bytes =
        ((runState noFaults tday [L1]).stats "M").bytes + L3.bytes ∧
      ((pyGet (some (.vint 3))).toBool = true →
        (st'.stats "M").last_pt = some (.vint 3) ∧
        (st'.stats "M").first_pt =
          (if ((runState noFaults tday [L1]).stats "M").first_pt = none
           then some (.vint 3)
           else ((runState noFaults tday [L1]).stats "M").first_pt)) ∧
      ((pyGet (some (.vint 3))).toBool = false →
        (st'.stats "M").last_pt = ((runState noFaults tday [L1]).stats "M").last_pt ∧
        (st'.stats "M").first_pt =
          ((runState noFaults tday [L1]).stats "M").first_pt) :=
  stats_update_amended noFaults "M" tday (some (.vint 3)) L3
    (runState noFaults tday [L1])
    (by decide) (by decide) (by decide) (by decide) (by decide) (by decide)
    (by decide)

/-- C8 counterexample: reopening after an auto-finalize resets the stats —
after `[L1, L2c]` the key counted 2 lines with `first_pt` from `L1`; one more
line (`L3`) reopens the writer and the count drops to 1 with a fresh
`first_pt` — so `line_count` is not monotone over the recorder's lifetime and
`first_event_ts` is not set at most once. -/
theorem stats_monotonic_counterexample :
    ((runState noFaults tday [L1, L2c]).stats "M").lines = 2 ∧
    ((runState noFaults tday [L1, L2c, L3]).stats "M").lines = 1 ∧
    ((runState noFaults tday [L1, L2c]).stats "M").first_pt = some (.vint 1) ∧
    ((runState noFaults tday [L1, L2c, L3]).stats "M").first_pt = some (.vint 3) := by
  exact ⟨by decide, by decide, by decide, by decide⟩

/-! ## Claim C9 — implicit filter no-op -/

/-- C9: a line containing the heartbeat tag anywhere in its text, or lacking
the `"op":"mcm"` tag, or failing JSON decode, leaves `on_data` with the state
it was given — every map and the whole filesystem unchanged, no exception —
regardless of what the line would otherwise have meant. -/
theorem filter_noop (f : Faults) (today : String) (st : RecState) (ln : RawLine)
    (h : ln.hb = true ∨ ln.mcm = false ∨ ln.parsed = none) :
    onData f today st ln = .ok st := by
  rcases h with h | h | h
  · simp [onData, h]
  · simp [onData, h]
  · by_cases hskip : (ln.hb || !ln.mcm) = true
    · simp [onData, hskip]
    · have hskip' : (ln.hb || !ln.mcm) = false := by simpa using hskip
      simp [onData, hskip', h]

/-- A genuine-looking data message for `M` whose raw text embeds the
heartbeat tag: dropped by the substring probe before any decoding effect. -/
def LhbEmbed : RawLine :=
  { hb := true, mcm := true, bytes := 20,
    parsed := some { pt := some (.vint 5),
                     mc := [{ id := some "M",
                              marketDefinition := some { inPlay := some (.vbool true) } }] } }

/-- A line that decodes fine but lacks the `"op":"mcm"` tag. -/
def LnoMcm : RawLine :=
  { hb := false, mcm := false, bytes := 8, parsed := some { pt := some (.vint 5) } }

/-- A tagged line whose JSON decode raises. -/
def Lbad : RawLine := { hb := false, mcm := true, bytes := 6, parsed := none }

/-- C9 witness: all three filter conditions at concrete lines — including the
data message that merely embeds the heartbeat tag — return the initial state
untouched. -/
theorem filter_noop_witness :
    onData noFaults tday initState LhbEmbed = .ok initState ∧
    onData noFaults tday initState LnoMcm = .ok initState ∧
    onData noFaults tday initState Lbad = .ok initState :=
  ⟨filter_noop noFaults tday initState LhbEmbed (Or.inl (by decide)),
   filter_noop noFaults tday initState LnoMcm (Or.inr (Or.inl (by decide))),
   filter_noop noFaults tday initState Lbad (Or.inr (Or.inr (by decide)))⟩

/-! ## Claim C10 — finalize totality and part retention -/

/-- C10: `_finalize_file` wraps every mutating filesystem call in
try/except, so it always returns (the embedding is a total function whose
fault branches model each caught exception), and whenever the injected fault
actually strikes the branch being executed — the rename when no final exists,
the chunked copy, or the remove after a completed copy — the `.part` file is
left exactly as it was, so its payload remains on disk for recovery. -/
theorem finalize_error_handling (f : Faults) (st : RecState) (k : String)
    {Pf Pp : FPath} (hp : st.paths k = some (Pf, Pp)) (hne : Pf ≠ Pp) :
    (∀ n, f.copyFailAfter k = some n → st.fs Pf ≠ none →
      (finalizeFile f st k).fs Pp = st.fs Pp) ∧
    (f.renameFails k = true → st.fs Pf = none →
      (finalizeFile f st k).fs Pp = st.fs Pp) ∧
    (f.removeFails k = true → f.copyFailAfter k = none → st.fs Pf ≠ none →
      (finalizeFile f st k).fs Pp = st.fs Pp) ∧
    ((finalizeFile f st k).fs Pp = none → st.fs Pp = none ∨
      (st.fs Pf = none ∧ f.renameFails k = false) ∨
      (st.fs Pf ≠ none ∧ f.copyFailAfter k = none ∧ f.removeFails k = false)) := by
  have hne' : Pp ≠ Pf := fun h => hne h.symm
  cases hpc : st.fs Pp with
  | none =>
      have hfin : finalizeFile f st k = st := finalizeFile_noop_nopart hp hpc
      rw [hfin]
      exact ⟨fun _ _ _ => hpc, fun _ _ => hpc, fun _ _ _ => hpc, fun _ => Or.inl rfl⟩
  | some pc =>
      cases hfc : st.fs Pf with
      | none =>
          by_cases hrn : f.renameFails k = true
          · have hfin : finalizeFile f st k = st := by
              unfold finalizeFile
              simp [hp, hpc, hfc, hrn]
            rw [hfin]
            refine ⟨?_, fun _ _ => hpc, ?_, fun habs => ?_⟩
            · intro _ _ habs
              exact absurd rfl habs
            · intro _ _ habs
              exact absurd rfl habs
            · rw [hpc] at habs
              cases habs
          · have hrn' : f.renameFails k = false := by simpa using hrn
            have hfin : finalizeFile f st k =
                { st with fs := fsUpd (fsUpd st.fs Pp none) Pf (some pc) } := by
              unfold finalizeFile
              simp [hp, hpc, hfc, hrn']
            rw [hfin]
            refine ⟨?_, ?_, ?_, fun _ => Or.inr (Or.inl ⟨rfl, hrn'⟩)⟩
            · intro _ _ habs
              exact absurd rfl habs
            · intro hcontra _
              exact absurd hcontra hrn
            · intro _ _ habs
              exact absurd rfl habs
      | some fc =>
          have hfs2 : ∀ v, fsUpd st.fs Pf v Pp = some pc := by
            intro v
            rw [fsUpd_other _ _ _ _ hne']
            exact hpc
          cases hcp : f.copyFailAfter k with
          | some n =>
              have hfin : finalizeFile f st k =
                  { st with fs := fsUpd st.fs Pf (some (fc ++ pc.take n)) } := by
                unfold finalizeFile
                simp [hp, hpc, hfc, hcp]
              rw [hfin]
              refine ⟨fun _ _ _ => hfs2 (some (fc ++ pc.take n)),
                fun _ hcontra => Option.noConfusion hcontra,
                fun _ hcontra _ => Option.noConfusion hcontra,
                fun habs => ?_⟩
              have h2 : ({ st with fs := fsUpd st.fs Pf (some (fc ++ pc.take n)) }
                  : RecState).fs Pp = some pc := hfs2 _
              rw [h2] at habs
              cases habs
          | none =>
              by_cases hrm : f.removeFails k = true
              · have hfin : finalizeFile f st k =
                    { st with fs := fsUpd st.fs Pf (some (fc ++ pc)) } := by
                  unfold finalizeFile
                  simp [hp, hpc, hfc, hcp, hrm]
                rw [hfin]
                refine ⟨fun _ hcontra _ => Option.noConfusion hcontra,
                  fun _ hcontra => Option.noConfusion hcontra,
                  fun _ _ _ => hfs2 (some (fc ++ pc)),
                  fun habs => ?_⟩
                have h2 : ({ st with fs := fsUpd st.fs Pf (some (fc ++ pc)) }
                    : RecState).fs Pp = some pc := hfs2 _
                rw [h2] at habs
                cases habs
              · have hrm' : f.removeFails k = false := by simpa using hrm
                have hfin : finalizeFile f st k =
                    { st with
                      fs := fsUpd (fsUpd st.fs Pf (some (fc ++ pc))) Pp none } := by
                  unfold finalizeFile
                  simp [hp, hpc, hfc, hcp, hrm']
                rw [hfin]
                exact ⟨fun _ hcontra _ => Option.noConfusion hcontra,
                  fun _ hcontra => Option.noConfusion hcontra,
                  fun hcontra _ _ => absurd hcontra hrm,
                  fun _ => Or.inr (Or.inr
                    ⟨fun h => Option.noConfusion h, rfl, hrm'⟩)⟩

/-- A recorder state for `M` with a non-empty `.part` and an existing final
artifact, the configuration in which finalize must append-then-delete. -/
def stTwoFiles : RecState :=
  { initState with
    paths := upd initState.paths "M" (some (Pfin, Ppart)),
    fs := fsUpd (fsUpd initState.fs Ppart (some [L1])) Pfin (some [L3]) }

/-- Faults: the chunked copy onto `M`'s final artifact raises before any
chunk is transferred. -/
def cM : Faults :=
  { noFaults with copyFailAfter := fun m => if m = "M" then some 0 else none }

/-- C10 witness: when the copy onto the existing final artifact raises, the
exception is caught and the `.part` file — still holding its payload — is not
deleted. -/
theorem finalize_error_handling_witness :
    (finalizeFile cM stTwoFiles "M").fs Ppart = stTwoFiles.fs Ppart ∧
    (finalizeFile cM stTwoFiles "M").fs Ppart = some [L1] := by
  have h1 := (@finalize_error_handling cM stTwoFiles "M" Pfin Ppart
    (by decide) (by decide)).1 0 (by decide) (by decide)
  exact ⟨h1, h1.trans (by decide)⟩

end MdRecorder
